import Mathlib

set_option maxHeartbeats 1000000
set_option autoImplicit false

/-!
Shallow embedding of the wave-function-collapse engine of src/main.rs
(repository rust-uwfc).

Modelling conventions:
* Rust u8 connector codes become Nat (only equality of codes is ever used,
  so no overflow behaviour matters).
* HashSet of char becomes a duplicate-free List Char (abbreviated CSet);
  insertion order of a Rust HashSet is unspecified, and every use in the
  program (intersection, length, membership, random choice) is order
  independent, so a list kept duplicate-free by construction is a faithful
  model of the set.
* The HashMap with the four fixed keys up, right, down, left becomes the
  structure Poss with four fields.  The iteration order of values() is
  unspecified in Rust; update_entropy only builds an intersection and a
  length from it, both of which are order independent, and we fix the
  order [up, right, down, left].
* Vec of Vec of Tile becomes the structure Board: a height, a width and a
  total cell function.  All accesses in the source are guarded exactly by
  the bounds checks that appear here, so out-of-range cells are never
  inspected.
* The process-wide random source (SliceRandom::choose) is modelled by
  nondeterministic choice: the step relation StepAt allows any element of
  the list the program would choose from.  A panicking unwrap (choosing
  from an empty list, or an empty board) has no corresponding transition.
-/

/-- The four edge-connector codes of a tile (struct Sides in the source). -/
structure Sides where
  up : Nat
  right : Nat
  down : Nat
  left : Nat
deriving DecidableEq

/-- A duplicate-free list of glyphs, modelling HashSet of char. -/
abbrev CSet := List Char

/-- The four per-direction possibility sets (the possibilities HashMap). -/
structure Poss where
  up : CSet
  right : CSet
  down : CSet
  left : CSet
deriving DecidableEq

/-- struct Tile of the source.  The allowed field holds full tiles, as the
Rust Vec of Tile does, which makes the type a nested inductive. -/
inductive Tile : Type where
  | mk (tile : Char) (sides : Sides) (entropy : Nat) (possibilities : Poss)
      (allowed : List Tile) (active : Bool) : Tile

def Tile.tile : Tile → Char
  | .mk c _ _ _ _ _ => c

def Tile.sides : Tile → Sides
  | .mk _ s _ _ _ _ => s

def Tile.entropy : Tile → Nat
  | .mk _ _ e _ _ _ => e

def Tile.possibilities : Tile → Poss
  | .mk _ _ _ p _ _ => p

def Tile.allowed : Tile → List Tile
  | .mk _ _ _ _ a _ => a

def Tile.active : Tile → Bool
  | .mk _ _ _ _ _ ac => ac

/-- Tile::init_possibilities: the four keys, all mapped to empty sets. -/
def Tile.initPossibilities : Poss := ⟨[], [], [], []⟩

/-- Tile::new. -/
def Tile.new (c : Char) (s : Sides) : Tile :=
  .mk c s 13 Tile.initPossibilities [] false

/-- Overwrite the possibilities field (the per-direction mutations). -/
def Tile.setPoss : Tile → Poss → Tile
  | .mk c s e _ a ac, p => .mk c s e p a ac

/-- Overwrite allowed and entropy (the two assignments of update_entropy). -/
def Tile.setAllowedEntropy : Tile → List Tile → Nat → Tile
  | .mk c s _ p _ ac, a, e => .mk c s e p a ac

/-- Overwrite the active flag. -/
def Tile.setActive : Tile → Bool → Tile
  | .mk c s e p a _, ac => .mk c s e p a ac

/-- Tile::get_tile_from_char: first catalog tile with the given glyph. -/
def Tile.get_tile_from_char (tiles : List Tile) (c : Char) : Option Tile :=
  tiles.find? (fun t => t.tile == c)

/-- The possibility sets in the fixed order up, right, down, left
(the values() iteration of the possibilities map). -/
def possList (p : Poss) : List CSet := [p.up, p.right, p.down, p.left]

/-- HashSet intersection on the list model. -/
def interCS (a s : CSet) : CSet := a.filter (fun c => s.contains c)

/-- Tile::update_entropy.  values are the non-empty possibility sets; if
none exists, allowed is cleared and entropy becomes 99; otherwise allowed
is the intersection of the non-empty sets mapped back through the catalog
and entropy is its length. -/
def Tile.update_entropy (self : Tile) (tiles : List Tile) : Tile :=
  match (possList self.possibilities).filter (fun s => !s.isEmpty) with
  | [] => self.setAllowedEntropy [] 99
  | v :: vs =>
    let inter := vs.foldl interCS v
    let allowed := inter.filterMap (Tile.get_tile_from_char tiles)
    self.setAllowedEntropy allowed allowed.length

/-- The board: Vec of Vec of Tile, with board.len() = h rows and
board[0].len() = w columns. -/
structure Board where
  h : Nat
  w : Nat
  cells : Nat → Nat → Tile

/-- board[i][j] = t. -/
def setCell (b : Board) (i j : Nat) (t : Tile) : Board :=
  ⟨b.h, b.w, fun i2 j2 => if i2 = i ∧ j2 = j then t else b.cells i2 j2⟩

/-- The positions visited by the nested loops for i in 0..h, for j in 0..w,
in order. -/
def rowMajor (h w : Nat) : List (Nat × Nat) :=
  (List.range h).flatMap (fun i => (List.range w).map (fun j => (i, j)))

/-- The tile_set of update_entropies: all catalog glyphs. -/
def tileSet (tiles : List Tile) : CSet := (tiles.map Tile.tile).dedup

/-- The set of glyphs of catalog tiles satisfying a side predicate (one
inner for-loop of update_entropies). -/
def matchChars (tiles : List Tile) (p : Tile → Bool) : CSet :=
  ((tiles.filter p).map Tile.tile).dedup

/-- The up possibility set computed for cell (i, j): guarded by i > 0; a
resolved upper neighbour contributes the tiles whose up code equals the
neighbour down code, an unresolved one contributes the full tile set. -/
def dirPossUp (b : Board) (tiles : List Tile) (i j : Nat) : CSet :=
  if 0 < i then
    let up := b.cells (i - 1) j
    if up.tile ≠ '-' then
      matchChars tiles (fun tl => tl.sides.up == up.sides.down)
    else tileSet tiles
  else []

/-- The right possibility set, guarded by j < w - 1. -/
def dirPossRight (b : Board) (tiles : List Tile) (i j : Nat) : CSet :=
  if j < b.w - 1 then
    let right := b.cells i (j + 1)
    if right.tile ≠ '-' then
      matchChars tiles (fun tl => tl.sides.right == right.sides.left)
    else tileSet tiles
  else []

/-- The down possibility set, guarded by i < h - 1. -/
def dirPossDown (b : Board) (tiles : List Tile) (i j : Nat) : CSet :=
  if i < b.h - 1 then
    let down := b.cells (i + 1) j
    if down.tile ≠ '-' then
      matchChars tiles (fun tl => tl.sides.down == down.sides.up)
    else tileSet tiles
  else []

/-- The left possibility set, guarded by j > 0. -/
def dirPossLeft (b : Board) (tiles : List Tile) (i j : Nat) : CSet :=
  if 0 < j then
    let left := b.cells i (j - 1)
    if left.tile ≠ '-' then
      matchChars tiles (fun tl => tl.sides.left == left.sides.right)
    else tileSet tiles
  else []

/-- The body of the double loop of update_entropies at position (i, j):
clone the cell, clear its possibility sets, skip it when inactive,
recompute the sets when it is undetermined, write it back and run
update_entropy on it. -/
def newCell (b : Board) (tiles : List Tile) (i j : Nat) : Tile :=
  let cell := b.cells i j
  if cell.active = false then cell
  else if cell.tile = '-' then
    (cell.setPoss
      ⟨dirPossUp b tiles i j, dirPossRight b tiles i j,
       dirPossDown b tiles i j, dirPossLeft b tiles i j⟩).update_entropy tiles
  else (cell.setPoss Tile.initPossibilities).update_entropy tiles

/-- One loop iteration of update_entropies, as a board transformer. -/
def passCell (tiles : List Tile) (b : Board) (p : Nat × Nat) : Board :=
  setCell b p.1 p.2 (newCell b tiles p.1 p.2)

/-- fn update_entropies: the sequential row-major pass over the board. -/
def update_entropies (b : Board) (tiles : List Tile) : Board :=
  (rowMajor b.h b.w).foldl (passCell tiles) b

/-- The entropies of all cells, in row-major order (the flat_map of
find_random_lowest_entropy_index). -/
def entropyList (b : Board) : List Nat :=
  (rowMajor b.h b.w).map (fun p => (b.cells p.1 p.2).entropy)

/-- min().unwrap() over all entropies (the empty-board case never occurs
in a run, both h and w being positive). -/
def minEntropy (b : Board) : Nat :=
  match entropyList b with
  | [] => 0
  | e :: es => es.foldl min e

/-- fn find_random_lowest_entropy_index: the candidate list from which one
position is chosen uniformly at random. -/
def lowestEntropyIndices (b : Board) : List (Nat × Nat) :=
  (rowMajor b.h b.w).filter (fun p => (b.cells p.1 p.2).entropy == minEntropy b)

/-- Activate board[i][j] when it is undetermined (one neighbour branch of
update_adjacent_tiles). -/
def activateIfUndet (b : Board) (i j : Nat) : Board :=
  let t := b.cells i j
  if t.tile = '-' then setCell b i j (t.setActive true) else b

/-- fn update_adjacent_tiles: deactivate (x, y), then activate each
in-bounds undetermined neighbour.  width is board.len() = h and height is
board[0].len() = w, exactly as (mis)named in the source. -/
def update_adjacent_tiles (board : Board) (x y : Nat) : Board :=
  let width := board.h
  let height := board.w
  let b0 := setCell board x y ((board.cells x y).setActive false)
  let b1 := if 0 < x then activateIfUndet b0 (x - 1) y else b0
  let b2 := if y < height - 1 then activateIfUndet b1 x (y + 1) else b1
  let b3 := if x < width - 1 then activateIfUndet b2 (x + 1) y else b2
  if 0 < y then activateIfUndet b3 x (y - 1) else b3

/-- The fresh board of one run: every cell is Tile::new with glyph - and
codes (0,0,0,0). -/
def initBoard (h w : Nat) : Board :=
  ⟨h, w, fun _ _ => Tile.new '-' ⟨0, 0, 0, 0⟩⟩

/-- The board mutation of one loop iteration after the cell and tile have
been chosen: board[x][y] = tile, then update_adjacent_tiles. -/
def collapseAt (b : Board) (x y : Nat) (t : Tile) : Board :=
  update_adjacent_tiles (setCell b x y t) x y

/-- One iteration of the main loop, with the two random choices made
explicit: at iteration 0 the position is chosen among the minimum-entropy
cells of the fresh board and the tile among the whole catalog; at any
later iteration the board is first recomputed by update_entropies, the
position is chosen among its minimum-entropy cells and the tile among the
allowed list of the chosen cell.  An empty choice list (the unwrap panic)
admits no transition. -/
def StepAt (tiles : List Tile) (n : Nat) (b : Board) (x y : Nat) (t : Tile)
    (b2 : Board) : Prop :=
  if n = 0 then
    (x, y) ∈ lowestEntropyIndices b ∧ t ∈ tiles ∧ b2 = collapseAt b x y t
  else
    (x, y) ∈ lowestEntropyIndices (update_entropies b tiles) ∧
    t ∈ ((update_entropies b tiles).cells x y).allowed ∧
    b2 = collapseAt (update_entropies b tiles) x y t

/-- One iteration with the choices hidden. -/
def Step (tiles : List Tile) (n : Nat) (b b2 : Board) : Prop :=
  ∃ x y t, StepAt tiles n b x y t b2

/-- The states reachable after n non-panicking iterations of the main
loop started on b0. -/
inductive Reaches (tiles : List Tile) (b0 : Board) : Nat → Board → Prop where
  | refl : Reaches tiles b0 0 b0
  | step {n : Nat} {b b2 : Board} :
      Reaches tiles b0 n b → Step tiles n b b2 → Reaches tiles b0 (n + 1) b2

/-- A cell is resolved when it carries a concrete glyph. -/
def resolvedP (b : Board) (i j : Nat) : Prop := (b.cells i j).tile ≠ '-'

/-- Orthogonal grid adjacency of two positions. -/
def adjacentP (x y i j : Nat) : Prop :=
  (i = x ∧ (j = y + 1 ∨ y = j + 1)) ∨ (j = y ∧ (i = x + 1 ∨ x = i + 1))

/-- The tile t agrees with every resolved in-bounds neighbour of (x, y):
the facing connector codes are equal. -/
def compatAt (b : Board) (x y : Nat) (t : Tile) : Prop :=
  (0 < x → resolvedP b (x - 1) y → t.sides.up = (b.cells (x - 1) y).sides.down) ∧
  (y + 1 < b.w → resolvedP b x (y + 1) → t.sides.right = (b.cells x (y + 1)).sides.left) ∧
  (x + 1 < b.h → resolvedP b (x + 1) y → t.sides.down = (b.cells (x + 1) y).sides.up) ∧
  (0 < y → resolvedP b x (y - 1) → t.sides.left = (b.cells x (y - 1)).sides.right)

/-- Every orthogonally adjacent pair of resolved cells has matching facing
connector codes. -/
def edgesOk (b : Board) : Prop :=
  (∀ i j, i + 1 < b.h → j < b.w → resolvedP b i j → resolvedP b (i + 1) j →
    (b.cells i j).sides.down = (b.cells (i + 1) j).sides.up) ∧
  (∀ i j, i < b.h → j + 1 < b.w → resolvedP b i j → resolvedP b i (j + 1) →
    (b.cells i j).sides.right = (b.cells i (j + 1)).sides.left)

/-- The number of resolved in-bounds cells. -/
def resolvedCount (b : Board) : Nat :=
  ((rowMajor b.h b.w).filter (fun p => (b.cells p.1 p.2).tile != '-')).length

/-- The properties of the catalog of main that the run-level theorems use:
it is non-empty, glyphs are distinct and none is the undetermined marker,
every entry is a fresh Tile::new value (entropy 13, empty allowed list,
inactive), and for every entry, seen as a resolved neighbour, each of the
four facing-match sets is non-empty and has fewer than 13 elements. -/
def goodCatalog (tiles : List Tile) : Prop :=
  tiles ≠ [] ∧
  (tiles.map Tile.tile).Nodup ∧
  (∀ t ∈ tiles, t.tile ≠ '-' ∧ t.entropy = 13 ∧ t.allowed.length = 0 ∧
    t.active = false ∧ t.possibilities = Tile.initPossibilities) ∧
  (∀ t ∈ tiles,
    (0 < (matchChars tiles (fun tl => tl.sides.up == t.sides.down)).length ∧
      (matchChars tiles (fun tl => tl.sides.up == t.sides.down)).length < 13) ∧
    (0 < (matchChars tiles (fun tl => tl.sides.right == t.sides.left)).length ∧
      (matchChars tiles (fun tl => tl.sides.right == t.sides.left)).length < 13) ∧
    (0 < (matchChars tiles (fun tl => tl.sides.down == t.sides.up)).length ∧
      (matchChars tiles (fun tl => tl.sides.down == t.sides.up)).length < 13) ∧
    (0 < (matchChars tiles (fun tl => tl.sides.left == t.sides.right)).length ∧
      (matchChars tiles (fun tl => tl.sides.left == t.sides.right)).length < 13))

/-- The tile catalog defined in main. -/
def mainTiles : List Tile :=
  [Tile.new ' ' ⟨0, 0, 0, 0⟩,
   Tile.new '╠' ⟨1, 1, 1, 0⟩,
   Tile.new '╦' ⟨0, 1, 1, 1⟩,
   Tile.new '╣' ⟨1, 0, 1, 1⟩,
   Tile.new '╩' ⟨1, 1, 0, 1⟩,
   Tile.new '╔' ⟨0, 1, 1, 0⟩,
   Tile.new '╗' ⟨0, 0, 1, 1⟩,
   Tile.new '╚' ⟨1, 1, 0, 0⟩,
   Tile.new '╝' ⟨1, 0, 0, 1⟩,
   Tile.new '╬' ⟨1, 1, 1, 1⟩,
   Tile.new '║' ⟨1, 0, 1, 0⟩,
   Tile.new '═' ⟨0, 1, 0, 1⟩,
   Tile.new '├' ⟨2, 2, 2, 0⟩,
   Tile.new '┬' ⟨0, 2, 2, 2⟩,
   Tile.new '┤' ⟨2, 0, 2, 2⟩,
   Tile.new '┴' ⟨2, 2, 0, 2⟩,
   Tile.new '┌' ⟨0, 2, 2, 0⟩,
   Tile.new '┐' ⟨0, 0, 2, 2⟩,
   Tile.new '└' ⟨2, 2, 0, 0⟩,
   Tile.new '┘' ⟨2, 0, 0, 2⟩,
   Tile.new '┼' ⟨2, 2, 2, 2⟩,
   Tile.new '│' ⟨2, 0, 2, 0⟩,
   Tile.new '─' ⟨0, 2, 0, 2⟩,
   Tile.new '╨' ⟨1, 2, 0, 2⟩,
   Tile.new '╡' ⟨2, 0, 2, 1⟩,
   Tile.new '╥' ⟨0, 2, 1, 2⟩,
   Tile.new '╞' ⟨2, 1, 2, 0⟩]

/-- The reachable-state invariant of the main loop, after n iterations:
exactly n cells are resolved; every resolved cell is a deactivated catalog
clone; every inactive undetermined cell still holds its initial value;
every active cell is undetermined and touches a resolved cell; every
undetermined cell touching a resolved cell is active; and all facing codes
of resolved neighbours match. -/
structure LoopInv (tiles : List Tile) (n : Nat) (b : Board) : Prop where
  hpos : 0 < b.h ∧ 0 < b.w
  count : resolvedCount b = n
  res : ∀ i j, i < b.h → j < b.w → (b.cells i j).tile ≠ '-' →
    ∃ t ∈ tiles, b.cells i j = t.setActive false
  inact : ∀ i j, i < b.h → j < b.w → (b.cells i j).tile = '-' →
    (b.cells i j).active = false → b.cells i j = Tile.new '-' ⟨0, 0, 0, 0⟩
  act : ∀ i j, i < b.h → j < b.w → (b.cells i j).active = true →
    (b.cells i j).tile = '-' ∧
    ∃ i2 j2, i2 < b.h ∧ j2 < b.w ∧ adjacentP i j i2 j2 ∧ (b.cells i2 j2).tile ≠ '-'
  front : ∀ i j i2 j2, i < b.h → j < b.w → i2 < b.h → j2 < b.w →
    adjacentP i j i2 j2 → (b.cells i j).tile = '-' → (b.cells i2 j2).tile ≠ '-' →
    (b.cells i j).active = true
  edges : edgesOk b

/-- A two-tile catalog used for concrete counterexamples: the two tiles
match nothing, including each other, across any shared edge. -/
def ctlgAB : List Tile :=
  [Tile.new 'a' ⟨0, 0, 0, 0⟩, Tile.new 'b' ⟨1, 1, 1, 1⟩]

/-- A 1 by 3 board whose middle cell is active and undetermined while its
two neighbours are resolved with mutually conflicting constraints under
ctlgAB: the left neighbour forces glyph a, the right neighbour forces
glyph b. -/
def b0c3 : Board :=
  ⟨1, 3, fun i j =>
    if i = 0 ∧ j = 0 then (Tile.new 'a' ⟨0, 0, 0, 0⟩).setActive false
    else if i = 0 ∧ j = 1 then (Tile.new '-' ⟨0, 0, 0, 0⟩).setActive true
    else (Tile.new 'b' ⟨1, 1, 1, 1⟩).setActive false⟩

/-- A 1 by 1 board whose only cell is active and undetermined: no direction
is in bounds, so no direction produces a non-empty possibility set. -/
def b0c5 : Board :=
  ⟨1, 1, fun _ _ => (Tile.new '-' ⟨0, 0, 0, 0⟩).setActive true⟩

/-- A 2 by 1 board: the upper cell is resolved to the tee glyph (codes
0,1,1,1) and the lower cell is active and undetermined. -/
def b0c7 : Board :=
  ⟨2, 1, fun i _ =>
    if i = 0 then (Tile.new '╦' ⟨0, 1, 1, 1⟩).setActive false
    else (Tile.new '-' ⟨0, 0, 0, 0⟩).setActive true⟩


/-- First collapse choice of the concrete 1 by 2 demonstration run: the
blank tile. -/
def t0w : Tile := Tile.new ' ' ⟨0, 0, 0, 0⟩

/-- The 1 by 2 board after the iteration-0 collapse at (0, 0). -/
def b1w : Board := collapseAt (initBoard 1 2) 0 0 t0w

/-- The same board after the iteration-1 recomputation pass. -/
def b1wPass : Board := update_entropies b1w mainTiles

/-- The tile chosen at iteration 1: the head of the allowed list of the
selected cell (0, 1). -/
def t1w : Tile :=
  ((b1wPass.cells 0 1).allowed).head
    (List.ne_nil_of_length_pos (by decide))

/-- The 1 by 2 board after both collapses: a completed run. -/
def b2w : Board := collapseAt b1wPass 0 1 t1w

/-- The full effect of update_adjacent_tiles at an in-bounds position:
the collapsed cell is deactivated; every in-bounds undetermined neighbour
is activated; resolved neighbours and all remaining cells are untouched;
no field except active changes anywhere; the dimensions are kept. -/
def uaSpec (b : Board) (x y : Nat) : Prop :=
  ((update_adjacent_tiles b x y).cells x y).active = false ∧
  (update_adjacent_tiles b x y).cells x y = (b.cells x y).setActive false ∧
  (∀ i j, i < b.h → j < b.w → adjacentP x y i j → (b.cells i j).tile = '-' →
    (update_adjacent_tiles b x y).cells i j = (b.cells i j).setActive true) ∧
  (∀ i j, adjacentP x y i j → (b.cells i j).tile ≠ '-' →
    (update_adjacent_tiles b x y).cells i j = b.cells i j) ∧
  (∀ i j, ¬(i = x ∧ j = y) → ¬adjacentP x y i j →
    (update_adjacent_tiles b x y).cells i j = b.cells i j) ∧
  (∀ i j, ((update_adjacent_tiles b x y).cells i j).tile = (b.cells i j).tile ∧
    ((update_adjacent_tiles b x y).cells i j).sides = (b.cells i j).sides ∧
    ((update_adjacent_tiles b x y).cells i j).entropy = (b.cells i j).entropy ∧
    ((update_adjacent_tiles b x y).cells i j).possibilities = (b.cells i j).possibilities ∧
    ((update_adjacent_tiles b x y).cells i j).allowed = (b.cells i j).allowed) ∧
  (update_adjacent_tiles b x y).h = b.h ∧ (update_adjacent_tiles b x y).w = b.w

/-- Each non-panicking loop iteration before the grid is full resolves
exactly one previously undetermined cell and changes the resolvedness of
no other cell. -/
def oneStepResolves (tiles : List Tile) (h w : Nat) : Prop :=
  ∀ n b b2, n < h * w → Reaches tiles (initBoard h w) n b → Step tiles n b b2 →
    ∃ x y, x < h ∧ y < w ∧ (b.cells x y).tile = '-' ∧ (b2.cells x y).tile ≠ '-' ∧
      ∀ i j, i < h → j < w → ¬(i = x ∧ j = y) →
        ((b2.cells i j).tile = '-' ↔ (b.cells i j).tile = '-')

/-- After h*w non-panicking iterations every cell carries a catalog glyph. -/
def allCatalogAfterFull (tiles : List Tile) (h w : Nat) : Prop :=
  ∀ b, Reaches tiles (initBoard h w) (h * w) b →
    ∀ i j, i < h → j < w → ∃ t ∈ tiles, (b.cells i j).tile = t.tile

/-- Every in-bounds neighbour of (i, j) is resolved and admits no matching
catalog tile in the facing direction.  This is the exact situation in which
the recomputation finds no non-empty direction set for an active
undetermined cell. -/
def allNeighborsExhausted (b : Board) (tiles : List Tile) (i j : Nat) : Prop :=
  (0 < i → (b.cells (i - 1) j).tile ≠ '-' ∧
    matchChars tiles (fun tl => tl.sides.up == (b.cells (i - 1) j).sides.down) = []) ∧
  (j < b.w - 1 → (b.cells i (j + 1)).tile ≠ '-' ∧
    matchChars tiles (fun tl => tl.sides.right == (b.cells i (j + 1)).sides.left) = []) ∧
  (i < b.h - 1 → (b.cells (i + 1) j).tile ≠ '-' ∧
    matchChars tiles (fun tl => tl.sides.down == (b.cells (i + 1) j).sides.up) = []) ∧
  (0 < j → (b.cells i (j - 1)).tile ≠ '-' ∧
    matchChars tiles (fun tl => tl.sides.left == (b.cells i (j - 1)).sides.right) = [])

/-! ### Basic field lemmas -/

@[simp]
theorem Tile.tile_mk (c : Char) (s : Sides) (e : Nat) (p : Poss)
    (a : List Tile) (ac : Bool) : (Tile.mk c s e p a ac).tile = c := rfl

@[simp]
theorem Tile.sides_mk (c : Char) (s : Sides) (e : Nat) (p : Poss)
    (a : List Tile) (ac : Bool) : (Tile.mk c s e p a ac).sides = s := rfl

@[simp]
theorem Tile.entropy_mk (c : Char) (s : Sides) (e : Nat) (p : Poss)
    (a : List Tile) (ac : Bool) : (Tile.mk c s e p a ac).entropy = e := rfl

@[simp]
theorem Tile.possibilities_mk (c : Char) (s : Sides) (e : Nat) (p : Poss)
    (a : List Tile) (ac : Bool) : (Tile.mk c s e p a ac).possibilities = p := rfl

@[simp]
theorem Tile.allowed_mk (c : Char) (s : Sides) (e : Nat) (p : Poss)
    (a : List Tile) (ac : Bool) : (Tile.mk c s e p a ac).allowed = a := rfl

@[simp]
theorem Tile.active_mk (c : Char) (s : Sides) (e : Nat) (p : Poss)
    (a : List Tile) (ac : Bool) : (Tile.mk c s e p a ac).active = ac := rfl

@[simp]
theorem Tile.tile_setPoss (t : Tile) (p : Poss) : (t.setPoss p).tile = t.tile := by
  cases t; rfl

@[simp]
theorem Tile.sides_setPoss (t : Tile) (p : Poss) : (t.setPoss p).sides = t.sides := by
  cases t; rfl

@[simp]
theorem Tile.entropy_setPoss (t : Tile) (p : Poss) : (t.setPoss p).entropy = t.entropy := by
  cases t; rfl

@[simp]
theorem Tile.possibilities_setPoss (t : Tile) (p : Poss) :
    (t.setPoss p).possibilities = p := by
  cases t; rfl

@[simp]
theorem Tile.allowed_setPoss (t : Tile) (p : Poss) : (t.setPoss p).allowed = t.allowed := by
  cases t; rfl

@[simp]
theorem Tile.active_setPoss (t : Tile) (p : Poss) : (t.setPoss p).active = t.active := by
  cases t; rfl

@[simp]
theorem Tile.tile_setAllowedEntropy (t : Tile) (a : List Tile) (e : Nat) :
    (t.setAllowedEntropy a e).tile = t.tile := by cases t; rfl

@[simp]
theorem Tile.sides_setAllowedEntropy (t : Tile) (a : List Tile) (e : Nat) :
    (t.setAllowedEntropy a e).sides = t.sides := by cases t; rfl

@[simp]
theorem Tile.entropy_setAllowedEntropy (t : Tile) (a : List Tile) (e : Nat) :
    (t.setAllowedEntropy a e).entropy = e := by cases t; rfl

@[simp]
theorem Tile.possibilities_setAllowedEntropy (t : Tile) (a : List Tile) (e : Nat) :
    (t.setAllowedEntropy a e).possibilities = t.possibilities := by cases t; rfl

@[simp]
theorem Tile.allowed_setAllowedEntropy (t : Tile) (a : List Tile) (e : Nat) :
    (t.setAllowedEntropy a e).allowed = a := by cases t; rfl

@[simp]
theorem Tile.active_setAllowedEntropy (t : Tile) (a : List Tile) (e : Nat) :
    (t.setAllowedEntropy a e).active = t.active := by cases t; rfl

@[simp]
theorem Tile.tile_setActive (t : Tile) (ac : Bool) : (t.setActive ac).tile = t.tile := by
  cases t; rfl

@[simp]
theorem Tile.sides_setActive (t : Tile) (ac : Bool) : (t.setActive ac).sides = t.sides := by
  cases t; rfl

@[simp]
theorem Tile.entropy_setActive (t : Tile) (ac : Bool) :
    (t.setActive ac).entropy = t.entropy := by cases t; rfl

@[simp]
theorem Tile.possibilities_setActive (t : Tile) (ac : Bool) :
    (t.setActive ac).possibilities = t.possibilities := by cases t; rfl

@[simp]
theorem Tile.allowed_setActive (t : Tile) (ac : Bool) :
    (t.setActive ac).allowed = t.allowed := by cases t; rfl

@[simp]
theorem Tile.active_setActive (t : Tile) (ac : Bool) : (t.setActive ac).active = ac := by
  cases t; rfl

theorem Tile.update_entropy_tile (t : Tile) (tiles : List Tile) :
    (t.update_entropy tiles).tile = t.tile := by
  unfold Tile.update_entropy
  split <;> simp

theorem Tile.update_entropy_sides (t : Tile) (tiles : List Tile) :
    (t.update_entropy tiles).sides = t.sides := by
  unfold Tile.update_entropy
  split <;> simp

theorem Tile.update_entropy_active (t : Tile) (tiles : List Tile) :
    (t.update_entropy tiles).active = t.active := by
  unfold Tile.update_entropy
  split <;> simp

theorem Tile.update_entropy_possibilities (t : Tile) (tiles : List Tile) :
    (t.update_entropy tiles).possibilities = t.possibilities := by
  unfold Tile.update_entropy
  split <;> simp

/-! ### Board and pass lemmas -/

@[simp]
theorem setCell_h (b : Board) (i j : Nat) (t : Tile) : (setCell b i j t).h = b.h := rfl

@[simp]
theorem setCell_w (b : Board) (i j : Nat) (t : Tile) : (setCell b i j t).w = b.w := rfl

theorem setCell_cells (b : Board) (i j : Nat) (t : Tile) (i2 j2 : Nat) :
    (setCell b i j t).cells i2 j2 = if i2 = i ∧ j2 = j then t else b.cells i2 j2 := rfl

theorem setCell_cells_self (b : Board) (i j : Nat) (t : Tile) :
    (setCell b i j t).cells i j = t := by
  simp [setCell_cells]

theorem setCell_cells_ne (b : Board) (i j : Nat) (t : Tile) (i2 j2 : Nat)
    (h : ¬(i2 = i ∧ j2 = j)) : (setCell b i j t).cells i2 j2 = b.cells i2 j2 := by
  simp only [setCell_cells, if_neg h]

theorem rowMajor_eq_product (h w : Nat) :
    rowMajor h w = (List.range h).product (List.range w) := rfl

theorem mem_rowMajor (h w i j : Nat) :
    (i, j) ∈ rowMajor h w ↔ i < h ∧ j < w := by
  rw [rowMajor_eq_product, List.pair_mem_product]
  simp [List.mem_range]

theorem rowMajor_nodup (h w : Nat) : (rowMajor h w).Nodup := by
  rw [rowMajor_eq_product]
  exact List.Nodup.product (List.nodup_range h) (List.nodup_range w)

theorem rowMajor_length (h w : Nat) : (rowMajor h w).length = h * w := by
  induction h with
  | zero => simp [rowMajor]
  | succ n ih =>
    unfold rowMajor at ih ⊢
    rw [List.range_succ, List.flatMap_append]
    simp [ih, Nat.succ_mul]

theorem newCell_tile (b : Board) (tiles : List Tile) (i j : Nat) :
    (newCell b tiles i j).tile = (b.cells i j).tile := by
  simp only [newCell]
  split
  · rfl
  · split <;> simp [Tile.update_entropy_tile]

theorem newCell_sides (b : Board) (tiles : List Tile) (i j : Nat) :
    (newCell b tiles i j).sides = (b.cells i j).sides := by
  simp only [newCell]
  split
  · rfl
  · split <;> simp [Tile.update_entropy_sides]

theorem newCell_active (b : Board) (tiles : List Tile) (i j : Nat) :
    (newCell b tiles i j).active = (b.cells i j).active := by
  simp only [newCell]
  split
  · rfl
  · split <;> simp [Tile.update_entropy_active]

theorem newCell_inactive (b : Board) (tiles : List Tile) (i j : Nat)
    (h : (b.cells i j).active = false) : newCell b tiles i j = b.cells i j := by
  unfold newCell
  rw [if_pos h]

/-- Tiles with equal tile, sides, possibilities and active fields give
equal update_entropy results (entropy and allowed are overwritten). -/
theorem Tile.update_entropy_congr (tiles : List Tile) (t u : Tile)
    (h1 : t.tile = u.tile) (h2 : t.sides = u.sides)
    (h3 : t.possibilities = u.possibilities) (h4 : t.active = u.active) :
    t.update_entropy tiles = u.update_entropy tiles := by
  cases t with | mk c s e p a ac =>
  cases u with | mk c2 s2 e2 p2 a2 ac2 =>
  simp only [Tile.tile_mk, Tile.sides_mk, Tile.possibilities_mk, Tile.active_mk] at h1 h2 h3 h4
  subst h1; subst h2; subst h3; subst h4
  unfold Tile.update_entropy
  simp only [Tile.possibilities_mk]
  split <;> rfl

/-- newCell only reads the cell itself together with the tile and sides
fields of the rest of the board (an inactive cell is returned unchanged,
which is covered by the last hypothesis). -/
theorem newCell_congr (b b2 : Board) (tiles : List Tile) (i j : Nat)
    (hh : b2.h = b.h) (hw : b2.w = b.w)
    (hts : ∀ i2 j2, (b2.cells i2 j2).tile = (b.cells i2 j2).tile ∧
      (b2.cells i2 j2).sides = (b.cells i2 j2).sides)
    (hact : (b2.cells i j).active = (b.cells i j).active)
    (hself : (b.cells i j).active = false → b2.cells i j = b.cells i j) :
    newCell b2 tiles i j = newCell b tiles i j := by
  have hup : dirPossUp b2 tiles i j = dirPossUp b tiles i j := by
    unfold dirPossUp
    dsimp only
    rw [(hts (i - 1) j).1, (hts (i - 1) j).2]
  have hright : dirPossRight b2 tiles i j = dirPossRight b tiles i j := by
    unfold dirPossRight
    dsimp only
    rw [hw, (hts i (j + 1)).1, (hts i (j + 1)).2]
  have hdown : dirPossDown b2 tiles i j = dirPossDown b tiles i j := by
    unfold dirPossDown
    dsimp only
    rw [hh, (hts (i + 1) j).1, (hts (i + 1) j).2]
  have hleft : dirPossLeft b2 tiles i j = dirPossLeft b tiles i j := by
    unfold dirPossLeft
    dsimp only
    rw [(hts i (j - 1)).1, (hts i (j - 1)).2]
  by_cases ha : (b.cells i j).active = false
  · rw [newCell_inactive b tiles i j ha, newCell_inactive b2 tiles i j (by rw [hact]; exact ha),
      hself ha]
  · have ha2 : (b2.cells i j).active ≠ false := by rw [hact]; exact ha
    simp only [newCell, if_neg ha, if_neg ha2, hup, hright, hdown, hleft]
    rw [(hts i j).1]
    by_cases ht : (b.cells i j).tile = '-'
    · rw [if_pos ht, if_pos ht]
      apply Tile.update_entropy_congr <;> simp [(hts i j).1, (hts i j).2, hact]
    · rw [if_neg ht, if_neg ht]
      apply Tile.update_entropy_congr <;> simp [(hts i j).1, (hts i j).2, hact]

theorem foldl_passCell_h (tiles : List Tile) (L : List (Nat × Nat)) (b : Board) :
    (L.foldl (passCell tiles) b).h = b.h := by
  induction L generalizing b with
  | nil => rfl
  | cons p L ih => simpa [List.foldl_cons] using ih (passCell tiles b p)

theorem foldl_passCell_w (tiles : List Tile) (L : List (Nat × Nat)) (b : Board) :
    (L.foldl (passCell tiles) b).w = b.w := by
  induction L generalizing b with
  | nil => rfl
  | cons p L ih => simpa [List.foldl_cons] using ih (passCell tiles b p)

/-- The sequential pass equals the parallel one: positions are visited at
most once, and only fields that the recomputation never reads are written,
so every visited position ends up holding newCell of the original board. -/
theorem foldl_passCell_cells (tiles : List Tile) (L : List (Nat × Nat))
    (b : Board) (hnd : L.Nodup) (i j : Nat) :
    (L.foldl (passCell tiles) b).cells i j =
      if (i, j) ∈ L then newCell b tiles i j else b.cells i j := by
  induction L generalizing b with
  | nil => simp
  | cons p L ih =>
    have hndL : L.Nodup := hnd.of_cons
    have hpnotL : p ∉ L := (List.nodup_cons.mp hnd).1
    have hb2 : ∀ i2 j2, (passCell tiles b p).cells i2 j2 =
        if (i2, j2) = p then newCell b tiles p.1 p.2 else b.cells i2 j2 := by
      intro i2 j2
      simp only [passCell, setCell_cells]
      by_cases hc : i2 = p.1 ∧ j2 = p.2
      · rw [if_pos hc, if_pos (by cases p; simp_all)]
      · rw [if_neg hc, if_neg (by cases p; simp_all [Prod.ext_iff])]
    have hts : ∀ i2 j2, ((passCell tiles b p).cells i2 j2).tile = (b.cells i2 j2).tile ∧
        ((passCell tiles b p).cells i2 j2).sides = (b.cells i2 j2).sides := by
      intro i2 j2
      rw [hb2 i2 j2]
      by_cases hc : (i2, j2) = p
      · rw [if_pos hc]
        have h1 := newCell_tile b tiles p.1 p.2
        have h2 := newCell_sides b tiles p.1 p.2
        rw [← hc] at h1 h2 ⊢
        exact ⟨h1, h2⟩
      · rw [if_neg hc]
        exact ⟨rfl, rfl⟩
    rw [List.foldl_cons, ih (passCell tiles b p) hndL]
    by_cases hmem : (i, j) ∈ L
    · rw [if_pos hmem, if_pos (List.mem_cons_of_mem p hmem)]
      have hne : (i, j) ≠ p := fun hc => hpnotL (hc ▸ hmem)
      apply newCell_congr
      · rfl
      · rfl
      · exact hts
      · rw [hb2 i j, if_neg hne]
      · intro _
        rw [hb2 i j, if_neg hne]
    · rw [if_neg hmem, hb2 i j]
      by_cases hc : (i, j) = p
      · rw [if_pos hc, if_pos (hc ▸ List.mem_cons_self (i, j) L)]
        rw [show p.1 = i by rw [← hc], show p.2 = j by rw [← hc]]
      · rw [if_neg hc, if_neg (by simp [hc, hmem])]

@[simp]
theorem update_entropies_h (b : Board) (tiles : List Tile) :
    (update_entropies b tiles).h = b.h := foldl_passCell_h tiles _ b

@[simp]
theorem update_entropies_w (b : Board) (tiles : List Tile) :
    (update_entropies b tiles).w = b.w := foldl_passCell_w tiles _ b

/-- Pointwise description of one recomputation pass. -/
theorem update_entropies_cells (b : Board) (tiles : List Tile) (i j : Nat) :
    (update_entropies b tiles).cells i j =
      if i < b.h ∧ j < b.w then newCell b tiles i j else b.cells i j := by
  unfold update_entropies
  rw [foldl_passCell_cells tiles _ b (rowMajor_nodup b.h b.w) i j]
  by_cases hb : i < b.h ∧ j < b.w
  · rw [if_pos hb, if_pos ((mem_rowMajor _ _ _ _).mpr hb)]
  · rw [if_neg hb, if_neg (fun hc => hb ((mem_rowMajor _ _ _ _).mp hc))]

/-! ### Set-level lemmas about the possibility machinery -/

theorem mem_interCS (a s : CSet) (c : Char) : c ∈ interCS a s ↔ c ∈ a ∧ c ∈ s := by
  simp [interCS, List.mem_filter, List.elem_iff]

theorem interCS_nodup (a s : CSet) (h : a.Nodup) : (interCS a s).Nodup :=
  h.filter _

theorem mem_foldl_interCS (vs : List CSet) (v : CSet) (c : Char) :
    c ∈ vs.foldl interCS v ↔ c ∈ v ∧ ∀ s ∈ vs, c ∈ s := by
  induction vs generalizing v with
  | nil => simp
  | cons s vs ih =>
    rw [List.foldl_cons, ih, mem_interCS]
    constructor
    · rintro ⟨⟨hv, hs⟩, hall⟩
      refine ⟨hv, fun s2 h2 => ?_⟩
      rcases List.mem_cons.mp h2 with rfl | h2
      · exact hs
      · exact hall s2 h2
    · rintro ⟨hv, hall⟩
      exact ⟨⟨hv, hall s (by simp)⟩, fun s2 h2 => hall s2 (by simp [h2])⟩

theorem nodup_foldl_interCS (vs : List CSet) (v : CSet) (h : v.Nodup) :
    (vs.foldl interCS v).Nodup := by
  induction vs generalizing v with
  | nil => exact h
  | cons s vs ih => exact ih _ (interCS_nodup _ _ h)

theorem mem_matchChars (tiles : List Tile) (p : Tile → Bool) (c : Char) :
    c ∈ matchChars tiles p ↔ ∃ tl ∈ tiles, p tl = true ∧ tl.tile = c := by
  simp only [matchChars, List.mem_dedup, List.mem_map, List.mem_filter]
  constructor
  · rintro ⟨tl, ⟨h1, h2⟩, h3⟩
    exact ⟨tl, h1, h2, h3⟩
  · rintro ⟨tl, h1, h2, h3⟩
    exact ⟨tl, ⟨h1, h2⟩, h3⟩

theorem matchChars_nodup (tiles : List Tile) (p : Tile → Bool) :
    (matchChars tiles p).Nodup := List.nodup_dedup _

theorem mem_tileSet (tiles : List Tile) (c : Char) :
    c ∈ tileSet tiles ↔ ∃ tl ∈ tiles, tl.tile = c := by
  simp [tileSet, List.mem_dedup, List.mem_map]

theorem tileSet_nodup (tiles : List Tile) : (tileSet tiles).Nodup := List.nodup_dedup _

theorem tileSet_ne_nil (tiles : List Tile) (h : tiles ≠ []) : tileSet tiles ≠ [] := by
  intro hc
  rcases tiles with _ | ⟨t, ts⟩
  · exact h rfl
  · have : t.tile ∈ tileSet (t :: ts) := (mem_tileSet _ _).mpr ⟨t, by simp⟩
    rw [hc] at this
    exact (List.not_mem_nil _ this)

theorem get_tile_from_char_mem (tiles : List Tile) (ch : Char) (u : Tile)
    (h : Tile.get_tile_from_char tiles ch = some u) : u ∈ tiles ∧ u.tile = ch := by
  refine ⟨List.mem_of_find?_eq_some h, ?_⟩
  have := List.find?_some h
  simpa [beq_iff_eq] using this

theorem nodup_map_tile_inj (tiles : List Tile) (hnd : (tiles.map Tile.tile).Nodup)
    (a b : Tile) (ha : a ∈ tiles) (hb : b ∈ tiles) (hab : a.tile = b.tile) : a = b :=
  List.inj_on_of_nodup_map hnd ha hb hab

theorem get_tile_from_char_of_mem (tiles : List Tile) (tl : Tile)
    (hnd : (tiles.map Tile.tile).Nodup) (htl : tl ∈ tiles) :
    Tile.get_tile_from_char tiles tl.tile = some tl := by
  unfold Tile.get_tile_from_char
  have hsome : (tiles.find? (fun t => t.tile == tl.tile)).isSome := by
    rw [List.find?_isSome]
    exact ⟨tl, htl, by simp⟩
  obtain ⟨u, hu⟩ := Option.isSome_iff_exists.mp hsome
  obtain ⟨humem, hutile⟩ := get_tile_from_char_mem tiles tl.tile u hu
  rw [hu, nodup_map_tile_inj tiles hnd u tl humem htl hutile]

/-! ### Behaviour of update_entropy -/

theorem update_entropy_of_all_empty (t : Tile) (tiles : List Tile)
    (h : (possList t.possibilities).filter (fun s => !s.isEmpty) = []) :
    (t.update_entropy tiles).allowed = [] ∧ (t.update_entropy tiles).entropy = 99 := by
  unfold Tile.update_entropy
  rw [h]
  simp

theorem update_entropy_entropy_eq_length (t : Tile) (tiles : List Tile)
    (h : (possList t.possibilities).filter (fun s => !s.isEmpty) ≠ []) :
    (t.update_entropy tiles).entropy = (t.update_entropy tiles).allowed.length := by
  unfold Tile.update_entropy
  rcases hfil : (possList t.possibilities).filter (fun s => !s.isEmpty) with _ | ⟨v, vs⟩
  · exact absurd hfil h
  · rw [hfil]
    simp

theorem mem_update_entropy_allowed (t : Tile) (tiles : List Tile) (u : Tile)
    (hu : u ∈ (t.update_entropy tiles).allowed) :
    ∃ ch, Tile.get_tile_from_char tiles ch = some u ∧
      ∀ s ∈ possList t.possibilities, s ≠ [] → ch ∈ s := by
  unfold Tile.update_entropy at hu
  rcases hfil : (possList t.possibilities).filter (fun s => !s.isEmpty) with _ | ⟨v, vs⟩
  · rw [hfil] at hu
    simp at hu
  · rw [hfil] at hu
    simp only [Tile.allowed_setAllowedEntropy] at hu
    rw [List.mem_filterMap] at hu
    obtain ⟨ch, hch, hfind⟩ := hu
    refine ⟨ch, hfind, ?_⟩
    intro s hs hsne
    have hsv : s ∈ v :: vs := by
      rw [← hfil]
      exact List.mem_filter.mpr ⟨hs, by simp [hsne]⟩
    have hmem := (mem_foldl_interCS vs v ch).mp hch
    rcases List.mem_cons.mp hsv with rfl | hvs
    · exact hmem.1
    · exact hmem.2 s hvs

theorem update_entropy_allowed_sub (t : Tile) (tiles : List Tile) (u : Tile)
    (hu : u ∈ (t.update_entropy tiles).allowed) : u ∈ tiles := by
  obtain ⟨ch, hfind, -⟩ := mem_update_entropy_allowed t tiles u hu
  exact (get_tile_from_char_mem tiles ch u hfind).1

theorem update_entropy_entropy_le (t : Tile) (tiles : List Tile) (s : CSet)
    (hs : s ∈ possList t.possibilities) (hne : s ≠ [])
    (hnd : ∀ v ∈ possList t.possibilities, v.Nodup) :
    (t.update_entropy tiles).entropy ≤ s.length := by
  unfold Tile.update_entropy
  rcases hfil : (possList t.possibilities).filter (fun s => !s.isEmpty) with _ | ⟨v, vs⟩
  · exfalso
    have : s ∈ (possList t.possibilities).filter (fun s => !s.isEmpty) :=
      List.mem_filter.mpr ⟨hs, by simp [hne]⟩
    rw [hfil] at this
    exact List.not_mem_nil s this
  · rw [hfil]
    simp only [Tile.entropy_setAllowedEntropy]
    have hvposs : v ∈ possList t.possibilities := by
      have : v ∈ (possList t.possibilities).filter (fun s => !s.isEmpty) := by
        rw [hfil]; simp
      exact (List.mem_filter.mp this).1
    have hsub : (vs.foldl interCS v) ⊆ s := by
      intro c hc
      have hmem := (mem_foldl_interCS vs v c).mp hc
      have hsv : s ∈ v :: vs := by
        rw [← hfil]
        exact List.mem_filter.mpr ⟨hs, by simp [hne]⟩
      rcases List.mem_cons.mp hsv with rfl | hvs
      · exact hmem.1
      · exact hmem.2 s hvs
    have hlen1 : ((vs.foldl interCS v).filterMap (Tile.get_tile_from_char tiles)).length ≤
        (vs.foldl interCS v).length := List.length_filterMap_le _ _
    have hlen2 : (vs.foldl interCS v).length ≤ s.length :=
      (List.subperm_of_subset (nodup_foldl_interCS vs v (hnd v hvposs)) hsub).length_le
    exact le_trans hlen1 hlen2

/-- When the filtered list of non-empty possibility sets is non-empty but
the allowed list computes to empty, the entropy is its length: zero. -/
theorem update_entropy_conflict (t : Tile) (tiles : List Tile)
    (h : (possList t.possibilities).filter (fun s => !s.isEmpty) ≠ [])
    (hall : (t.update_entropy tiles).allowed = []) :
    (t.update_entropy tiles).entropy = 0 := by
  rw [update_entropy_entropy_eq_length t tiles h, hall]
  rfl

/-! ### Behaviour of update_adjacent_tiles -/

theorem activateIfUndet_h (b : Board) (i j : Nat) : (activateIfUndet b i j).h = b.h := by
  unfold activateIfUndet
  dsimp only
  split <;> rfl

theorem activateIfUndet_w (b : Board) (i j : Nat) : (activateIfUndet b i j).w = b.w := by
  unfold activateIfUndet
  dsimp only
  split <;> rfl

theorem activateIfUndet_cells_ne (b : Board) (i j i2 j2 : Nat)
    (hne : ¬(i2 = i ∧ j2 = j)) :
    (activateIfUndet b i j).cells i2 j2 = b.cells i2 j2 := by
  unfold activateIfUndet
  dsimp only
  split
  · exact setCell_cells_ne _ _ _ _ _ _ hne
  · rfl

theorem activateIfUndet_cells_self (b : Board) (i j : Nat) :
    (activateIfUndet b i j).cells i j =
      if (b.cells i j).tile = '-' then (b.cells i j).setActive true else b.cells i j := by
  unfold activateIfUndet
  dsimp only
  by_cases hc : (b.cells i j).tile = '-'
  · rw [if_pos hc, if_pos hc, setCell_cells_self]
  · rw [if_neg hc, if_neg hc]

theorem stage_cells_skip (g : Prop) [Decidable g] (b : Board) (i j i2 j2 : Nat)
    (hb : g → ¬(i2 = i ∧ j2 = j)) :
    (if g then activateIfUndet b i j else b).cells i2 j2 = b.cells i2 j2 := by
  split
  · exact activateIfUndet_cells_ne b i j i2 j2 (hb ‹g›)
  · rfl

theorem stage_h (g : Prop) [Decidable g] (b : Board) (i j : Nat) :
    (if g then activateIfUndet b i j else b).h = b.h := by
  split
  · exact activateIfUndet_h b i j
  · rfl

theorem stage_w (g : Prop) [Decidable g] (b : Board) (i j : Nat) :
    (if g then activateIfUndet b i j else b).w = b.w := by
  split
  · exact activateIfUndet_w b i j
  · rfl

@[simp]
theorem ua_h (b : Board) (x y : Nat) : (update_adjacent_tiles b x y).h = b.h := by
  unfold update_adjacent_tiles
  dsimp only
  rw [stage_h, stage_h, stage_h, stage_h]
  rfl

@[simp]
theorem ua_w (b : Board) (x y : Nat) : (update_adjacent_tiles b x y).w = b.w := by
  unfold update_adjacent_tiles
  dsimp only
  rw [stage_w, stage_w, stage_w, stage_w]
  rfl

/-- After update_adjacent_tiles, the collapsed cell is its old value with
the active flag cleared. -/
theorem ua_cells_center (b : Board) (x y : Nat) :
    (update_adjacent_tiles b x y).cells x y = (b.cells x y).setActive false := by
  unfold update_adjacent_tiles
  dsimp only
  rw [stage_cells_skip (0 < y) _ x (y - 1) x y (by omega),
      stage_cells_skip (x < b.h - 1) _ (x + 1) y x y (by omega),
      stage_cells_skip (y < b.w - 1) _ x (y + 1) x y (by omega),
      stage_cells_skip (0 < x) _ (x - 1) y x y (by omega),
      setCell_cells_self]

/-- The in-bounds upper neighbour is activated when undetermined, untouched
otherwise. -/
theorem ua_cells_up (b : Board) (x y : Nat) (hx : 0 < x) :
    (update_adjacent_tiles b x y).cells (x - 1) y =
      if (b.cells (x - 1) y).tile = '-' then (b.cells (x - 1) y).setActive true
      else b.cells (x - 1) y := by
  unfold update_adjacent_tiles
  dsimp only
  rw [stage_cells_skip (0 < y) _ x (y - 1) (x - 1) y (by omega),
      stage_cells_skip (x < b.h - 1) _ (x + 1) y (x - 1) y (by omega),
      stage_cells_skip (y < b.w - 1) _ x (y + 1) (x - 1) y (by omega),
      if_pos hx, activateIfUndet_cells_self,
      setCell_cells_ne b x y _ (x - 1) y (by omega)]

/-- The in-bounds right neighbour is activated when undetermined, untouched
otherwise. -/
theorem ua_cells_right (b : Board) (x y : Nat) (hy : y < b.w - 1) :
    (update_adjacent_tiles b x y).cells x (y + 1) =
      if (b.cells x (y + 1)).tile = '-' then (b.cells x (y + 1)).setActive true
      else b.cells x (y + 1) := by
  unfold update_adjacent_tiles
  dsimp only
  rw [stage_cells_skip (0 < y) _ x (y - 1) x (y + 1) (by omega),
      stage_cells_skip (x < b.h - 1) _ (x + 1) y x (y + 1) (by omega),
      if_pos hy, activateIfUndet_cells_self,
      stage_cells_skip (0 < x) _ (x - 1) y x (y + 1) (by omega),
      setCell_cells_ne b x y _ x (y + 1) (by omega)]

/-- The in-bounds lower neighbour is activated when undetermined, untouched
otherwise. -/
theorem ua_cells_down (b : Board) (x y : Nat) (hx : x < b.h - 1) :
    (update_adjacent_tiles b x y).cells (x + 1) y =
      if (b.cells (x + 1) y).tile = '-' then (b.cells (x + 1) y).setActive true
      else b.cells (x + 1) y := by
  unfold update_adjacent_tiles
  dsimp only
  rw [stage_cells_skip (0 < y) _ x (y - 1) (x + 1) y (by omega),
      if_pos hx, activateIfUndet_cells_self,
      stage_cells_skip (y < b.w - 1) _ x (y + 1) (x + 1) y (by omega),
      stage_cells_skip (0 < x) _ (x - 1) y (x + 1) y (by omega),
      setCell_cells_ne b x y _ (x + 1) y (by omega)]

/-- The in-bounds left neighbour is activated when undetermined, untouched
otherwise. -/
theorem ua_cells_left (b : Board) (x y : Nat) (hy : 0 < y) :
    (update_adjacent_tiles b x y).cells x (y - 1) =
      if (b.cells x (y - 1)).tile = '-' then (b.cells x (y - 1)).setActive true
      else b.cells x (y - 1) := by
  unfold update_adjacent_tiles
  dsimp only
  rw [if_pos hy, activateIfUndet_cells_self,
      stage_cells_skip (x < b.h - 1) _ (x + 1) y x (y - 1) (by omega),
      stage_cells_skip (y < b.w - 1) _ x (y + 1) x (y - 1) (by omega),
      stage_cells_skip (0 < x) _ (x - 1) y x (y - 1) (by omega),
      setCell_cells_ne b x y _ x (y - 1) (by omega)]

/-- Cells other than the collapsed one and its written neighbour slots are
untouched. -/
theorem ua_cells_other (b : Board) (x y i j : Nat)
    (h0 : ¬(i = x ∧ j = y))
    (h1 : ¬(0 < x ∧ i = x - 1 ∧ j = y))
    (h2 : ¬(y < b.w - 1 ∧ i = x ∧ j = y + 1))
    (h3 : ¬(x < b.h - 1 ∧ i = x + 1 ∧ j = y))
    (h4 : ¬(0 < y ∧ i = x ∧ j = y - 1)) :
    (update_adjacent_tiles b x y).cells i j = b.cells i j := by
  unfold update_adjacent_tiles
  dsimp only
  rw [stage_cells_skip (0 < y) _ x (y - 1) i j (by omega),
      stage_cells_skip (x < b.h - 1) _ (x + 1) y i j (by omega),
      stage_cells_skip (y < b.w - 1) _ x (y + 1) i j (by omega),
      stage_cells_skip (0 < x) _ (x - 1) y i j (by omega),
      setCell_cells_ne b x y _ i j h0]

/-- Relation between an old and a new cell value: equal, or equal up to the
active flag. -/
def cellLike (t u : Tile) : Prop := u = t ∨ ∃ a : Bool, u = t.setActive a

theorem cellLike_refl (t : Tile) : cellLike t t := Or.inl rfl

theorem cellLike_trans (t u v : Tile) (h1 : cellLike t u) (h2 : cellLike u v) :
    cellLike t v := by
  rcases h1 with rfl | ⟨a, rfl⟩ <;> rcases h2 with rfl | ⟨c, rfl⟩
  · exact Or.inl rfl
  · exact Or.inr ⟨c, rfl⟩
  · exact Or.inr ⟨a, rfl⟩
  · exact Or.inr ⟨c, by cases t; rfl⟩

theorem cellLike_fields (t u : Tile) (h : cellLike t u) :
    u.tile = t.tile ∧ u.sides = t.sides ∧ u.entropy = t.entropy ∧
    u.possibilities = t.possibilities ∧ u.allowed = t.allowed := by
  rcases h with rfl | ⟨a, rfl⟩ <;> simp

theorem activateIfUndet_cellLike (b : Board) (i j i2 j2 : Nat) :
    cellLike (b.cells i2 j2) ((activateIfUndet b i j).cells i2 j2) := by
  by_cases hc : i2 = i ∧ j2 = j
  · obtain ⟨rfl, rfl⟩ := hc
    rw [activateIfUndet_cells_self]
    split
    · exact Or.inr ⟨true, rfl⟩
    · exact Or.inl rfl
  · rw [activateIfUndet_cells_ne b i j i2 j2 hc]
    exact Or.inl rfl

theorem stage_cellLike (g : Prop) [Decidable g] (b : Board) (i j i2 j2 : Nat) :
    cellLike (b.cells i2 j2) ((if g then activateIfUndet b i j else b).cells i2 j2) := by
  split
  · exact activateIfUndet_cellLike b i j i2 j2
  · exact cellLike_refl _

/-- update_adjacent_tiles changes at most the active flag of any cell. -/
theorem ua_cellLike (b : Board) (x y i j : Nat) :
    cellLike (b.cells i j) ((update_adjacent_tiles b x y).cells i j) := by
  have h0 : cellLike (b.cells i j)
      ((setCell b x y ((b.cells x y).setActive false)).cells i j) := by
    by_cases hc : i = x ∧ j = y
    · obtain ⟨rfl, rfl⟩ := hc
      rw [setCell_cells_self]
      exact Or.inr ⟨false, rfl⟩
    · rw [setCell_cells_ne _ _ _ _ _ _ hc]
      exact cellLike_refl _
  unfold update_adjacent_tiles
  dsimp only
  exact cellLike_trans _ _ _
    (cellLike_trans _ _ _
      (cellLike_trans _ _ _
        (cellLike_trans _ _ _ h0 (stage_cellLike _ _ _ _ _ _))
        (stage_cellLike _ _ _ _ _ _))
      (stage_cellLike _ _ _ _ _ _))
    (stage_cellLike _ _ _ _ _ _)

/-! ### Behaviour of collapseAt and of the selection scan -/

@[simp]
theorem collapseAt_h (b : Board) (x y : Nat) (t : Tile) : (collapseAt b x y t).h = b.h := by
  unfold collapseAt
  rw [ua_h, setCell_h]

@[simp]
theorem collapseAt_w (b : Board) (x y : Nat) (t : Tile) : (collapseAt b x y t).w = b.w := by
  unfold collapseAt
  rw [ua_w, setCell_w]

theorem collapseAt_center (b : Board) (x y : Nat) (t : Tile) :
    (collapseAt b x y t).cells x y = t.setActive false := by
  unfold collapseAt
  rw [ua_cells_center, setCell_cells_self]

theorem collapseAt_up (b : Board) (x y : Nat) (t : Tile) (hx : 0 < x) :
    (collapseAt b x y t).cells (x - 1) y =
      if (b.cells (x - 1) y).tile = '-' then (b.cells (x - 1) y).setActive true
      else b.cells (x - 1) y := by
  unfold collapseAt
  rw [ua_cells_up _ x y hx, setCell_cells_ne b x y t (x - 1) y (by omega)]

theorem collapseAt_right (b : Board) (x y : Nat) (t : Tile) (hy : y < b.w - 1) :
    (collapseAt b x y t).cells x (y + 1) =
      if (b.cells x (y + 1)).tile = '-' then (b.cells x (y + 1)).setActive true
      else b.cells x (y + 1) := by
  unfold collapseAt
  rw [ua_cells_right (setCell b x y t) x y hy, setCell_cells_ne b x y t x (y + 1) (by omega)]

theorem collapseAt_down (b : Board) (x y : Nat) (t : Tile) (hx : x < b.h - 1) :
    (collapseAt b x y t).cells (x + 1) y =
      if (b.cells (x + 1) y).tile = '-' then (b.cells (x + 1) y).setActive true
      else b.cells (x + 1) y := by
  unfold collapseAt
  rw [ua_cells_down (setCell b x y t) x y hx, setCell_cells_ne b x y t (x + 1) y (by omega)]

theorem collapseAt_left (b : Board) (x y : Nat) (t : Tile) (hy : 0 < y) :
    (collapseAt b x y t).cells x (y - 1) =
      if (b.cells x (y - 1)).tile = '-' then (b.cells x (y - 1)).setActive true
      else b.cells x (y - 1) := by
  unfold collapseAt
  rw [ua_cells_left _ x y hy, setCell_cells_ne b x y t x (y - 1) (by omega)]

theorem collapseAt_other (b : Board) (x y : Nat) (t : Tile) (i j : Nat)
    (h0 : ¬(i = x ∧ j = y))
    (h1 : ¬(0 < x ∧ i = x - 1 ∧ j = y))
    (h2 : ¬(y < b.w - 1 ∧ i = x ∧ j = y + 1))
    (h3 : ¬(x < b.h - 1 ∧ i = x + 1 ∧ j = y))
    (h4 : ¬(0 < y ∧ i = x ∧ j = y - 1)) :
    (collapseAt b x y t).cells i j = b.cells i j := by
  unfold collapseAt
  rw [ua_cells_other (setCell b x y t) x y i j h0 h1 h2 h3 h4, setCell_cells_ne b x y t i j h0]

theorem collapseAt_cellLike (b : Board) (x y : Nat) (t : Tile) (i j : Nat)
    (h0 : ¬(i = x ∧ j = y)) :
    cellLike (b.cells i j) ((collapseAt b x y t).cells i j) := by
  unfold collapseAt
  have := ua_cellLike (setCell b x y t) x y i j
  rwa [setCell_cells_ne b x y t i j h0] at this

theorem adjacentP_cases (x y i j : Nat) (h : adjacentP x y i j) :
    (0 < x ∧ i = x - 1 ∧ j = y) ∨ (j = y + 1 ∧ i = x) ∨
    (i = x + 1 ∧ j = y) ∨ (0 < y ∧ i = x ∧ j = y - 1) := by
  unfold adjacentP at h
  omega

theorem foldl_min_le_init (es : List Nat) (e : Nat) : es.foldl min e ≤ e := by
  induction es generalizing e with
  | nil => exact le_refl e
  | cons a es ih =>
    rw [List.foldl_cons]
    exact le_trans (ih (min e a)) (min_le_left e a)

theorem foldl_min_le_mem (es : List Nat) (e x : Nat) (hx : x ∈ es) :
    es.foldl min e ≤ x := by
  induction es generalizing e with
  | nil => exact absurd hx (List.not_mem_nil x)
  | cons a es ih =>
    rw [List.foldl_cons]
    rcases List.mem_cons.mp hx with rfl | hmem
    · exact le_trans (foldl_min_le_init es (min e x)) (min_le_right e x)
    · exact ih (min e a) hmem

theorem minEntropy_le (b : Board) (i j : Nat) (hi : i < b.h) (hj : j < b.w) :
    minEntropy b ≤ (b.cells i j).entropy := by
  have hmem : (b.cells i j).entropy ∈ entropyList b := by
    unfold entropyList
    exact List.mem_map_of_mem _ ((mem_rowMajor b.h b.w i j).mpr ⟨hi, hj⟩)
  rcases hL : entropyList b with _ | ⟨e, es⟩
  · rw [hL] at hmem
    exact absurd hmem (List.not_mem_nil _)
  · unfold minEntropy
    rw [hL] at hmem ⊢
    show es.foldl min e ≤ _
    rcases List.mem_cons.mp hmem with heq | hmem2
    · rw [heq]
      exact foldl_min_le_init es e
    · exact foldl_min_le_mem es e _ hmem2

theorem mem_lowestEntropyIndices (b : Board) (p : Nat × Nat) :
    p ∈ lowestEntropyIndices b ↔
      p.1 < b.h ∧ p.2 < b.w ∧ (b.cells p.1 p.2).entropy = minEntropy b := by
  cases p with | mk i j =>
  unfold lowestEntropyIndices
  rw [List.mem_filter, mem_rowMajor]
  simp [beq_iff_eq, and_assoc]

/-! ### The pass preserves the skeleton of the board -/

theorem pass_tile (b : Board) (tiles : List Tile) (i j : Nat) :
    ((update_entropies b tiles).cells i j).tile = (b.cells i j).tile := by
  rw [update_entropies_cells]
  split
  · exact newCell_tile b tiles i j
  · rfl

theorem pass_sides (b : Board) (tiles : List Tile) (i j : Nat) :
    ((update_entropies b tiles).cells i j).sides = (b.cells i j).sides := by
  rw [update_entropies_cells]
  split
  · exact newCell_sides b tiles i j
  · rfl

theorem pass_active (b : Board) (tiles : List Tile) (i j : Nat) :
    ((update_entropies b tiles).cells i j).active = (b.cells i j).active := by
  rw [update_entropies_cells]
  split
  · exact newCell_active b tiles i j
  · rfl

theorem pass_cells_inactive (b : Board) (tiles : List Tile) (i j : Nat)
    (h : (b.cells i j).active = false) :
    (update_entropies b tiles).cells i j = b.cells i j := by
  rw [update_entropies_cells]
  split
  · exact newCell_inactive b tiles i j h
  · rfl

theorem pass_cells_inbounds (b : Board) (tiles : List Tile) (i j : Nat)
    (hi : i < b.h) (hj : j < b.w) :
    (update_entropies b tiles).cells i j = newCell b tiles i j := by
  rw [update_entropies_cells, if_pos ⟨hi, hj⟩]

/-- Running the pass twice is the same as running it once, cell by cell:
the recomputation reads only fields it never writes. -/
theorem pass_pass_cells (b : Board) (tiles : List Tile) (i j : Nat) :
    (update_entropies (update_entropies b tiles) tiles).cells i j =
      (update_entropies b tiles).cells i j := by
  have hts : ∀ i2 j2,
      ((update_entropies b tiles).cells i2 j2).tile = (b.cells i2 j2).tile ∧
      ((update_entropies b tiles).cells i2 j2).sides = (b.cells i2 j2).sides :=
    fun i2 j2 => ⟨pass_tile b tiles i2 j2, pass_sides b tiles i2 j2⟩
  rw [update_entropies_cells (update_entropies b tiles) tiles i j,
    update_entropies_h, update_entropies_w]
  by_cases hb : i < b.h ∧ j < b.w
  · rw [if_pos hb]
    have hcong : newCell (update_entropies b tiles) tiles i j = newCell b tiles i j := by
      apply newCell_congr
      · exact update_entropies_h b tiles
      · exact update_entropies_w b tiles
      · exact hts
      · exact pass_active b tiles i j
      · exact pass_cells_inactive b tiles i j
    rw [hcong, pass_cells_inbounds b tiles i j hb.1 hb.2]
  · rw [if_neg hb]

/-- C10: recomputing the possibility sets and entropies twice in a row,
with no intervening collapse or activation change, gives every cell the
same allowed list and the same entropy as recomputing once; the pass is a
function of the current resolved-neighbour and active state only. -/
theorem C10_pass_idempotent (tiles : List Tile) (b : Board) (i j : Nat) :
    ((update_entropies (update_entropies b tiles) tiles).cells i j).allowed =
      ((update_entropies b tiles).cells i j).allowed ∧
    ((update_entropies (update_entropies b tiles) tiles).cells i j).entropy =
      ((update_entropies b tiles).cells i j).entropy := by
  rw [pass_pass_cells]
  exact ⟨rfl, rfl⟩

/-- C9: the full frame description of the frontier update after a collapse
at an in-bounds position. -/
theorem C9_update_adjacent_frame (b : Board) (x y : Nat)
    (hx : x < b.h) (hy : y < b.w) : uaSpec b x y := by
  refine ⟨?_, ua_cells_center b x y, ?_, ?_, ?_, ?_, ua_h b x y, ua_w b x y⟩
  · rw [ua_cells_center b x y]
    simp
  · intro i j hi hj hadj hund
    rcases adjacentP_cases x y i j hadj with ⟨hx0, hi1, hj1⟩ | ⟨hj1, hi1⟩ | ⟨hi1, hj1⟩ | ⟨hy0, hi1, hj1⟩
    · rw [hi1, hj1] at hund ⊢
      rw [ua_cells_up b x y hx0, if_pos hund]
    · rw [hi1, hj1] at hund ⊢
      rw [ua_cells_right b x y (by omega), if_pos hund]
    · rw [hi1, hj1] at hund ⊢
      rw [ua_cells_down b x y (by omega), if_pos hund]
    · rw [hi1, hj1] at hund ⊢
      rw [ua_cells_left b x y hy0, if_pos hund]
  · intro i j hadj hres
    rcases adjacentP_cases x y i j hadj with ⟨hx0, hi1, hj1⟩ | ⟨hj1, hi1⟩ | ⟨hi1, hj1⟩ | ⟨hy0, hi1, hj1⟩
    · rw [hi1, hj1] at hres ⊢
      rw [ua_cells_up b x y hx0, if_neg hres]
    · rw [hi1, hj1] at hres ⊢
      by_cases hg : y < b.w - 1
      · rw [ua_cells_right b x y hg, if_neg hres]
      · exact ua_cells_other b x y x (y + 1) (by omega) (by omega) (by omega) (by omega) (by omega)
    · rw [hi1, hj1] at hres ⊢
      by_cases hg : x < b.h - 1
      · rw [ua_cells_down b x y hg, if_neg hres]
      · exact ua_cells_other b x y (x + 1) y (by omega) (by omega) (by omega) (by omega) (by omega)
    · rw [hi1, hj1] at hres ⊢
      rw [ua_cells_left b x y hy0, if_neg hres]
  · intro i j h0 hnadj
    unfold adjacentP at hnadj
    exact ua_cells_other b x y i j h0 (by omega) (by omega) (by omega) (by omega)
  · intro i j
    exact cellLike_fields _ _ (ua_cellLike b x y i j)

/-- C9 witness: the frame description evaluated on the concrete 1 by 3
board at its middle position. -/
theorem C9_update_adjacent_frame_witness :
    0 < b0c3.h ∧ 1 < b0c3.w ∧ uaSpec b0c3 0 1 :=
  ⟨by decide, by decide, C9_update_adjacent_frame b0c3 0 1 (by decide) (by decide)⟩

/-! ### The pass on an active undetermined cell -/

theorem pass_cell_active_undet (b : Board) (tiles : List Tile) (i j : Nat)
    (hi : i < b.h) (hj : j < b.w) (hact : (b.cells i j).active = true)
    (hund : (b.cells i j).tile = '-') :
    (update_entropies b tiles).cells i j =
      ((b.cells i j).setPoss
        ⟨dirPossUp b tiles i j, dirPossRight b tiles i j,
         dirPossDown b tiles i j, dirPossLeft b tiles i j⟩).update_entropy tiles := by
  rw [pass_cells_inbounds b tiles i j hi hj]
  unfold newCell
  dsimp only
  rw [if_neg (by simp [hact]), if_pos hund]

theorem pass_possList_active_undet (b : Board) (tiles : List Tile) (i j : Nat)
    (hi : i < b.h) (hj : j < b.w) (hact : (b.cells i j).active = true)
    (hund : (b.cells i j).tile = '-') :
    possList (((update_entropies b tiles).cells i j).possibilities) =
      [dirPossUp b tiles i j, dirPossRight b tiles i j,
       dirPossDown b tiles i j, dirPossLeft b tiles i j] := by
  rw [pass_cell_active_undet b tiles i j hi hj hact hund,
    Tile.update_entropy_possibilities, Tile.possibilities_setPoss]
  rfl

theorem dirPossUp_eq_nil_iff (b : Board) (tiles : List Tile) (i j : Nat)
    (htiles : tiles ≠ []) :
    dirPossUp b tiles i j = [] ↔
      (0 < i → (b.cells (i - 1) j).tile ≠ '-' ∧
        matchChars tiles (fun tl => tl.sides.up == (b.cells (i - 1) j).sides.down) = []) := by
  unfold dirPossUp
  dsimp only
  by_cases h0 : 0 < i
  · rw [if_pos h0]
    by_cases hres : (b.cells (i - 1) j).tile ≠ '-'
    · rw [if_pos hres]
      constructor
      · intro hm
        intro _
        exact ⟨hres, hm⟩
      · intro hm
        exact (hm h0).2
    · rw [if_neg hres]
      constructor
      · intro hts
        exact absurd hts (tileSet_ne_nil tiles htiles)
      · intro hm
        exact absurd (hm h0).1 hres
  · rw [if_neg h0]
    simp [h0]

theorem dirPossRight_eq_nil_iff (b : Board) (tiles : List Tile) (i j : Nat)
    (htiles : tiles ≠ []) :
    dirPossRight b tiles i j = [] ↔
      (j < b.w - 1 → (b.cells i (j + 1)).tile ≠ '-' ∧
        matchChars tiles (fun tl => tl.sides.right == (b.cells i (j + 1)).sides.left) = []) := by
  unfold dirPossRight
  dsimp only
  by_cases h0 : j < b.w - 1
  · rw [if_pos h0]
    by_cases hres : (b.cells i (j + 1)).tile ≠ '-'
    · rw [if_pos hres]
      constructor
      · intro hm
        intro _
        exact ⟨hres, hm⟩
      · intro hm
        exact (hm h0).2
    · rw [if_neg hres]
      constructor
      · intro hts
        exact absurd hts (tileSet_ne_nil tiles htiles)
      · intro hm
        exact absurd (hm h0).1 hres
  · rw [if_neg h0]
    simp [h0]

theorem dirPossDown_eq_nil_iff (b : Board) (tiles : List Tile) (i j : Nat)
    (htiles : tiles ≠ []) :
    dirPossDown b tiles i j = [] ↔
      (i < b.h - 1 → (b.cells (i + 1) j).tile ≠ '-' ∧
        matchChars tiles (fun tl => tl.sides.down == (b.cells (i + 1) j).sides.up) = []) := by
  unfold dirPossDown
  dsimp only
  by_cases h0 : i < b.h - 1
  · rw [if_pos h0]
    by_cases hres : (b.cells (i + 1) j).tile ≠ '-'
    · rw [if_pos hres]
      constructor
      · intro hm
        intro _
        exact ⟨hres, hm⟩
      · intro hm
        exact (hm h0).2
    · rw [if_neg hres]
      constructor
      · intro hts
        exact absurd hts (tileSet_ne_nil tiles htiles)
      · intro hm
        exact absurd (hm h0).1 hres
  · rw [if_neg h0]
    simp [h0]

theorem dirPossLeft_eq_nil_iff (b : Board) (tiles : List Tile) (i j : Nat)
    (htiles : tiles ≠ []) :
    dirPossLeft b tiles i j = [] ↔
      (0 < j → (b.cells i (j - 1)).tile ≠ '-' ∧
        matchChars tiles (fun tl => tl.sides.left == (b.cells i (j - 1)).sides.right) = []) := by
  unfold dirPossLeft
  dsimp only
  by_cases h0 : 0 < j
  · rw [if_pos h0]
    by_cases hres : (b.cells i (j - 1)).tile ≠ '-'
    · rw [if_pos hres]
      constructor
      · intro hm
        intro _
        exact ⟨hres, hm⟩
      · intro hm
        exact (hm h0).2
    · rw [if_neg hres]
      constructor
      · intro hts
        exact absurd hts (tileSet_ne_nil tiles htiles)
      · intro hm
        exact absurd (hm h0).1 hres
  · rw [if_neg h0]
    simp [h0]

/-- C5 (amended): when the recomputation finds no non-empty direction set
for an active undetermined in-bounds cell, it clears the allowed list and
sets the entropy to the sentinel 99, not 13; and with a non-empty catalog
this happens exactly when every in-bounds neighbour is resolved and
matched by no catalog tile, never merely because no neighbour has
collapsed. -/
theorem C5_unconstrained_is_99 (b : Board) (tiles : List Tile) (i j : Nat)
    (hi : i < b.h) (hj : j < b.w) (hact : (b.cells i j).active = true)
    (hund : (b.cells i j).tile = '-') (htiles : tiles ≠ []) :
    ((possList (((update_entropies b tiles).cells i j).possibilities)).filter
        (fun s => !s.isEmpty) = [] ↔ allNeighborsExhausted b tiles i j) ∧
    (allNeighborsExhausted b tiles i j →
      ((update_entropies b tiles).cells i j).allowed = [] ∧
      ((update_entropies b tiles).cells i j).entropy = 99) := by
  have hposs := pass_possList_active_undet b tiles i j hi hj hact hund
  have hiff : (possList (((update_entropies b tiles).cells i j).possibilities)).filter
      (fun s => !s.isEmpty) = [] ↔ allNeighborsExhausted b tiles i j := by
    rw [hposs, List.filter_eq_nil_iff]
    unfold allNeighborsExhausted
    rw [← dirPossUp_eq_nil_iff b tiles i j htiles,
      ← dirPossRight_eq_nil_iff b tiles i j htiles,
      ← dirPossDown_eq_nil_iff b tiles i j htiles,
      ← dirPossLeft_eq_nil_iff b tiles i j htiles]
    constructor
    · intro hall
      refine ⟨?_, ?_, ?_, ?_⟩ <;>
        · rw [← List.isEmpty_iff]
          simpa using hall _ (by simp)
    · rintro ⟨h1, h2, h3, h4⟩ s hs
      simp only [List.mem_cons, List.not_mem_nil, or_false] at hs
      rcases hs with rfl | rfl | rfl | rfl <;>
        simp [h1, h2, h3, h4, List.isEmpty_iff]
  refine ⟨hiff, fun hexh => ?_⟩
  have hfil := hiff.mpr hexh
  rw [hposs] at hfil
  rw [pass_cell_active_undet b tiles i j hi hj hact hund]
  apply update_entropy_of_all_empty
  rw [Tile.possibilities_setPoss]
  exact hfil


/-- C5 counterexample: a recomputation on an active undetermined cell with
no non-empty direction set yields entropy 99, not the claimed 13. -/
theorem C5_cex :
    (b0c5.cells 0 0).active = true ∧ (b0c5.cells 0 0).tile = '-' ∧
    possList (((update_entropies b0c5 ctlgAB).cells 0 0).possibilities) =
      [[], [], [], []] ∧
    ((update_entropies b0c5 ctlgAB).cells 0 0).allowed.length = 0 ∧
    ((update_entropies b0c5 ctlgAB).cells 0 0).entropy = 99 ∧
    ((update_entropies b0c5 ctlgAB).cells 0 0).entropy ≠ 13 := by
  decide

/-- C5 witness: the amended statement evaluated on the concrete 1 by 1
board. -/
theorem C5_unconstrained_is_99_witness :
    allNeighborsExhausted b0c5 ctlgAB 0 0 ∧
    ((update_entropies b0c5 ctlgAB).cells 0 0).allowed = [] ∧
    ((update_entropies b0c5 ctlgAB).cells 0 0).entropy = 99 :=
  ⟨by unfold allNeighborsExhausted; decide,
   (C5_unconstrained_is_99 b0c5 ctlgAB 0 0 (by decide) (by decide) (by decide)
     (by decide) (by exact List.cons_ne_nil _ _)).2
     (by unfold allNeighborsExhausted; decide)⟩

/-- C3 (amended): for an undetermined cell whose recomputation finds at
least one non-empty direction set but whose intersection maps to an empty
allowed list, the entropy becomes the length of that list, namely 0 and
not 99; an entropy-0 cell realises the board minimum and belongs to the
candidate set of the selection scan, so it is preferentially chosen. -/
theorem C3_conflict_entropy_zero :
    (∀ (t : Tile) (tiles : List Tile),
      (possList t.possibilities).filter (fun s => !s.isEmpty) ≠ [] →
      (t.update_entropy tiles).allowed = [] →
      (t.update_entropy tiles).entropy = 0) ∧
    (∀ (b : Board) (i j : Nat), i < b.h → j < b.w → (b.cells i j).entropy = 0 →
      minEntropy b = 0 ∧ (i, j) ∈ lowestEntropyIndices b) := by
  constructor
  · intro t tiles hne hall
    exact update_entropy_conflict t tiles hne hall
  · intro b i j hi hj hz
    have hmin : minEntropy b = 0 :=
      Nat.le_antisymm (hz ▸ minEntropy_le b i j hi hj) (Nat.zero_le _)
    exact ⟨hmin, (mem_lowestEntropyIndices b (i, j)).mpr ⟨hi, hj, by rw [hz, hmin]⟩⟩

/-- C3 counterexample: an active undetermined cell with two non-empty but
disjoint direction sets gets entropy 0, not the claimed sentinel 99, and
its allowed list is empty. -/
theorem C3_cex :
    (b0c3.cells 0 1).active = true ∧ (b0c3.cells 0 1).tile = '-' ∧
    ((update_entropies b0c3 ctlgAB).cells 0 1).possibilities.left = ['a'] ∧
    ((update_entropies b0c3 ctlgAB).cells 0 1).possibilities.right = ['b'] ∧
    ((update_entropies b0c3 ctlgAB).cells 0 1).allowed.length = 0 ∧
    ((update_entropies b0c3 ctlgAB).cells 0 1).entropy = 0 ∧
    ((update_entropies b0c3 ctlgAB).cells 0 1).entropy ≠ 99 := by
  decide

/-- C3 witness: both halves of the amended statement evaluated on concrete
inputs from the 1 by 3 conflict board. -/
theorem C3_conflict_entropy_zero_witness :
    ((Tile.mk '-' ⟨0, 0, 0, 0⟩ 13 ⟨[], ['b'], [], ['a']⟩ [] true).update_entropy
      ctlgAB).entropy = 0 ∧
    minEntropy (update_entropies b0c3 ctlgAB) = 0 ∧
    (0, 1) ∈ lowestEntropyIndices (update_entropies b0c3 ctlgAB) :=
  ⟨C3_conflict_entropy_zero.1 _ ctlgAB (by decide) (by rfl),
   (C3_conflict_entropy_zero.2 (update_entropies b0c3 ctlgAB) 0 1 (by decide)
     (by decide) (by decide)).1,
   (C3_conflict_entropy_zero.2 (update_entropies b0c3 ctlgAB) 0 1 (by decide)
     (by decide) (by decide)).2⟩

/-- C7 (amended): for an active undetermined in-bounds cell with a
resolved upper neighbour N, the computed up possibility set consists of
exactly the catalog tiles T with T.up = N.down (the source compares the
up code of the candidate with the down code of the neighbour, not T.down
with N.up as the specification example states). -/
theorem C7_up_set (b : Board) (tiles : List Tile) (i j : Nat)
    (hi : i < b.h) (hj : j < b.w) (h0 : 0 < i)
    (hact : (b.cells i j).active = true) (hund : (b.cells i j).tile = '-')
    (hres : (b.cells (i - 1) j).tile ≠ '-') :
    ∀ ch : Char, ch ∈ ((update_entropies b tiles).cells i j).possibilities.up ↔
      ∃ tl ∈ tiles, tl.tile = ch ∧ tl.sides.up = (b.cells (i - 1) j).sides.down := by
  intro ch
  rw [pass_cell_active_undet b tiles i j hi hj hact hund,
    Tile.update_entropy_possibilities, Tile.possibilities_setPoss]
  show ch ∈ dirPossUp b tiles i j ↔ _
  unfold dirPossUp
  dsimp only
  rw [if_pos h0, if_pos hres, mem_matchChars]
  constructor
  · rintro ⟨tl, h1, h2, h3⟩
    exact ⟨tl, h1, h3, by simpa [beq_iff_eq] using h2⟩
  · rintro ⟨tl, h1, h3, h2⟩
    exact ⟨tl, h1, by simp [beq_iff_eq, h2], h3⟩

/-- C7 counterexample: below a resolved tee tile (codes 0,1,1,1) the blank
tile satisfies the claimed condition blank.down = N.up but is not in the
computed up possibility set, because the code collects tiles T with
T.up = N.down instead. -/
theorem C7_cex :
    (b0c7.cells 1 0).active = true ∧ (b0c7.cells 1 0).tile = '-' ∧
    (b0c7.cells 0 0).tile ≠ '-' ∧
    (∃ tl ∈ mainTiles, tl.tile = ' ' ∧ tl.sides.down = (b0c7.cells 0 0).sides.up) ∧
    ¬(' ' ∈ ((update_entropies b0c7 mainTiles).cells 1 0).possibilities.up) := by
  decide

/-- C7 witness: the amended membership equivalence evaluated at the blank
glyph on the concrete 2 by 1 board. -/
theorem C7_up_set_witness :
    ' ' ∈ ((update_entropies b0c7 mainTiles).cells 1 0).possibilities.up ↔
      ∃ tl ∈ mainTiles, tl.tile = ' ' ∧
        tl.sides.up = (b0c7.cells 0 0).sides.down :=
  C7_up_set b0c7 mainTiles 1 0 (by decide) (by decide) (by decide) (by decide)
    (by decide) (by decide) ' '

/-- C6: at any iteration after the first, when the selected cell has an
empty allowed list at collapse time, no transition assigns any tile to it:
the unwrap of the random choice panics and the run aborts instead of
continuing with an inconsistent grid. -/
theorem C6_empty_allowed_panics (tiles : List Tile) (n : Nat) (b : Board) (x y : Nat)
    (hn : n ≠ 0)
    (hsel : (x, y) ∈ lowestEntropyIndices (update_entropies b tiles))
    (hemp : ((update_entropies b tiles).cells x y).allowed = []) :
    ¬∃ (t : Tile) (b2 : Board), StepAt tiles n b x y t b2 := by
  rintro ⟨t, b2, hst⟩
  unfold StepAt at hst
  rw [if_neg hn, hemp] at hst
  exact List.not_mem_nil t hst.2.1

/-- C6 witness: on the concrete conflict board the middle cell is selected
with an empty allowed list at iteration 1 and admits no transition. -/
theorem C6_empty_allowed_panics_witness :
    (0, 1) ∈ lowestEntropyIndices (update_entropies b0c3 ctlgAB) ∧
    ((update_entropies b0c3 ctlgAB).cells 0 1).allowed = [] ∧
    ¬∃ (t : Tile) (b2 : Board), StepAt ctlgAB 1 b0c3 0 1 t b2 :=
  ⟨by decide, by rfl,
   C6_empty_allowed_panics ctlgAB 1 b0c3 0 1 (by decide) (by decide) (by rfl)⟩

/-- C8: the iteration-0 collapse on the fresh board assigns a tile taken
from the full catalog, the glyph of the collapsed cell becomes the glyph
of that tile, and the allowed list of the chosen cell is empty at that
moment (no neighbour is resolved yet).  The uniform distribution of the
choice is abstracted into nondeterminism. -/
theorem C8_first_collapse (tiles : List Tile) (h w x y : Nat) (t : Tile) (b2 : Board)
    (hstep : StepAt tiles 0 (initBoard h w) x y t b2) :
    t ∈ tiles ∧ (b2.cells x y).tile = t.tile ∧
    ((initBoard h w).cells x y).allowed = [] := by
  unfold StepAt at hstep
  rw [if_pos rfl] at hstep
  obtain ⟨-, ht, rfl⟩ := hstep
  refine ⟨ht, ?_, rfl⟩
  rw [collapseAt_center, Tile.tile_setActive]

/-- C8 witness: the concrete iteration-0 step of the 1 by 2 run. -/
theorem C8_first_collapse_witness :
    t0w ∈ mainTiles ∧ (b1w.cells 0 0).tile = t0w.tile ∧
    ((initBoard 1 2).cells 0 0).allowed = [] :=
  C8_first_collapse mainTiles 1 2 0 0 t0w b1w
    (by unfold StepAt
        rw [if_pos rfl]
        exact ⟨by decide, List.Mem.head _, rfl⟩)

/-! ### Counting and connectivity lemmas -/

theorem all_of_filter_length {α : Type} (L : List α) (f : α → Bool)
    (h : (L.filter f).length = L.length) : ∀ a ∈ L, f a = true := by
  induction L with
  | nil => simp
  | cons a L ih =>
    by_cases hf : f a
    · intro x hx
      rcases List.mem_cons.mp hx with rfl | hx2
      · exact hf
      · refine ih ?_ x hx2
        rw [List.filter_cons_of_pos hf] at h
        simpa using h
    · exfalso
      rw [List.filter_cons_of_neg (by simpa using hf)] at h
      have := List.length_filter_le f L
      simp at h
      omega

theorem exists_of_filter_pos {α : Type} (L : List α) (f : α → Bool)
    (h : 0 < (L.filter f).length) : ∃ a ∈ L, f a = true := by
  rcases hL : L.filter f with _ | ⟨a, as⟩
  · rw [hL] at h
    simp at h
  · have ha : a ∈ L.filter f := by
      rw [hL]
      simp
    exact ⟨a, (List.mem_filter.mp ha).1, (List.mem_filter.mp ha).2⟩

theorem exists_not_of_filter_lt {α : Type} (L : List α) (f : α → Bool)
    (h : (L.filter f).length < L.length) : ∃ a ∈ L, f a = false := by
  by_contra hc
  push_neg at hc
  have hall : ∀ a ∈ L, f a = true := by
    intro a ha
    cases hfa : f a
    · exact absurd hfa (hc a ha)
    · rfl
  rw [List.filter_eq_self.mpr hall] at h
  exact lt_irrefl _ h

theorem filter_length_update {α : Type} (L : List α) (f g : α → Bool) (p : α)
    (hnd : L.Nodup) (hp : p ∈ L) (hf : f p = false) (hg : g p = true)
    (hoth : ∀ q ∈ L, q ≠ p → g q = f q) :
    (L.filter g).length = (L.filter f).length + 1 := by
  induction L with
  | nil => cases hp
  | cons a L ih =>
    have hndL := hnd.of_cons
    rcases List.mem_cons.mp hp with rfl | hpL
    · have hpnot : p ∉ L := (List.nodup_cons.mp hnd).1
      have heq : L.filter g = L.filter f :=
        List.filter_congr (fun q hq =>
          hoth q (List.mem_cons_of_mem _ hq) (fun hc => hpnot (hc ▸ hq)))
      rw [List.filter_cons_of_pos hg, List.filter_cons_of_neg (by simp [hf]), heq]
      simp
    · have hne : a ≠ p := fun hc => (List.nodup_cons.mp hnd).1 (hc ▸ hpL)
      have hga : g a = f a := hoth a (List.mem_cons_self a L) hne
      have ihh := ih hndL hpL (fun q hq hqp => hoth q (List.mem_cons_of_mem _ hq) hqp)
      cases hfa : f a
      · rw [List.filter_cons_of_neg (by simp [hga, hfa]),
          List.filter_cons_of_neg (by simp [hfa]), ihh]
      · rw [List.filter_cons_of_pos (by simp [hga, hfa]),
          List.filter_cons_of_pos (by simp [hfa])]
        simp [ihh]

/-- On a rectangular grid, whenever some in-bounds cell satisfies R and
another does not, some in-bounds cell not satisfying R is orthogonally
adjacent to an in-bounds cell satisfying R.  Induction on the Manhattan
distance, walking the non-R cell towards the R cell. -/
theorem grid_boundary (hh ww : Nat) (R : Nat → Nat → Prop) :
    ∀ (d ra rb ua ub : Nat), ra < hh → rb < ww → ua < hh → ub < ww →
      R ra rb → ¬R ua ub →
      (ra - ua) + (ua - ra) + (rb - ub) + (ub - rb) ≤ d →
      ∃ ui uj ri rj, ui < hh ∧ uj < ww ∧ ri < hh ∧ rj < ww ∧
        adjacentP ui uj ri rj ∧ ¬R ui uj ∧ R ri rj := by
  intro d
  induction d with
  | zero =>
    intro ra rb ua ub h1 h2 h3 h4 hR hU hd
    have heq : ra = ua ∧ rb = ub := by omega
    exact absurd (heq.1 ▸ heq.2 ▸ hR) hU
  | succ d ih =>
    intro ra rb ua ub h1 h2 h3 h4 hR hU hd
    by_cases heq : ua = ra ∧ ub = rb
    · exact absurd (heq.1 ▸ heq.2 ▸ hR) hU
    · obtain ⟨u2a, u2b, hu2a, hu2b, hadj, hdist⟩ :
          ∃ u2a u2b, u2a < hh ∧ u2b < ww ∧ adjacentP ua ub u2a u2b ∧
            (ra - u2a) + (u2a - ra) + (rb - u2b) + (u2b - rb) ≤ d := by
        rcases Nat.lt_trichotomy ua ra with hlt | heq2 | hgt
        · exact ⟨ua + 1, ub, by omega, h4, by unfold adjacentP; omega, by omega⟩
        · rcases Nat.lt_trichotomy ub rb with hlt2 | heq3 | hgt2
          · exact ⟨ua, ub + 1, h3, by omega, by unfold adjacentP; omega, by omega⟩
          · exact absurd ⟨heq2, heq3⟩ heq
          · exact ⟨ua, ub - 1, h3, by omega, by unfold adjacentP; omega, by omega⟩
        · exact ⟨ua - 1, ub, by omega, h4, by unfold adjacentP; omega, by omega⟩
      by_cases hR2 : R u2a u2b
      · exact ⟨ua, ub, u2a, u2b, h3, h4, hu2a, hu2b, hadj, hU, hR2⟩
      · exact ih ra rb u2a u2b h1 h2 hu2a hu2b hR hR2 hdist

/-! ### The loop invariant -/

theorem inv_init (tiles : List Tile) (h w : Nat) (hh : 0 < h) (hw : 0 < w) :
    LoopInv tiles 0 (initBoard h w) := by
  refine ⟨⟨hh, hw⟩, ?_, ?_, ?_, ?_, ?_, ?_⟩
  · unfold resolvedCount
    rw [List.filter_eq_nil_iff.mpr (fun p _ => by simp [initBoard, Tile.new])]
    rfl
  · intro i j _ _ hres
    exact absurd rfl hres
  · intro i j _ _ _ _
    rfl
  · intro i j _ _ hact
    simp [initBoard, Tile.new] at hact
  · intro i j i2 j2 _ _ _ _ _ _ hres
    exact absurd rfl hres
  · constructor
    · intro i j _ _ hres
      exact absurd rfl hres
    · intro i j _ _ hres
      exact absurd rfl hres

/-- Transfer of the invariant along a board transformation that keeps the
dimensions, every tile, every sides record and every active flag, and
keeps inactive in-bounds cells entirely. -/
theorem inv_of_skeleton (tiles : List Tile) (n : Nat) (b b2 : Board)
    (hh : b2.h = b.h) (hw : b2.w = b.w)
    (hT : ∀ i j, (b2.cells i j).tile = (b.cells i j).tile)
    (hS : ∀ i j, (b2.cells i j).sides = (b.cells i j).sides)
    (hA : ∀ i j, (b2.cells i j).active = (b.cells i j).active)
    (hfix : ∀ i j, (b.cells i j).active = false → b2.cells i j = b.cells i j)
    (hinv : LoopInv tiles n b) : LoopInv tiles n b2 := by
  obtain ⟨hpos, hcount, hres, hinact, hact, hfront, hedges⟩ := hinv
  refine ⟨⟨hh ▸ hpos.1, hw ▸ hpos.2⟩, ?_, ?_, ?_, ?_, ?_, ?_⟩
  · unfold resolvedCount
    rw [hh, hw, ← hcount]
    unfold resolvedCount
    congr 1
    exact List.filter_congr (fun p _ => by rw [hT p.1 p.2])
  · intro i j hi hj hres2
    rw [hh] at hi
    rw [hw] at hj
    rw [hT i j] at hres2
    obtain ⟨t, ht, hcell⟩ := hres i j hi hj hres2
    have hinactive : (b.cells i j).active = false := by
      rw [hcell]
      simp
    rw [hfix i j hinactive]
    exact ⟨t, ht, hcell⟩
  · intro i j hi hj hund hinact2
    rw [hh] at hi
    rw [hw] at hj
    rw [hT i j] at hund
    rw [hA i j] at hinact2
    rw [hfix i j hinact2]
    exact hinact i j hi hj hund hinact2
  · intro i j hi hj hact2
    rw [hh] at hi
    rw [hw] at hj
    rw [hA i j] at hact2
    obtain ⟨hund, i2, j2, h1, h2, h3, h4⟩ := hact i j hi hj hact2
    exact ⟨by rw [hT i j]; exact hund,
      i2, j2, by rw [hh]; exact h1, by rw [hw]; exact h2, h3, by rw [hT i2 j2]; exact h4⟩
  · intro i j i2 j2 hi hj hi2 hj2 hadj hund hres2
    rw [hh] at hi hi2
    rw [hw] at hj hj2
    rw [hT i j] at hund
    rw [hT i2 j2] at hres2
    rw [hA i j]
    exact hfront i j i2 j2 hi hj hi2 hj2 hadj hund hres2
  · constructor
    · intro i j hi hj hr1 hr2
      rw [hh] at hi
      rw [hw] at hj
      unfold resolvedP at hr1 hr2
      rw [hT i j] at hr1
      rw [hT (i + 1) j] at hr2
      rw [hS i j, hS (i + 1) j]
      exact hedges.1 i j hi hj hr1 hr2
    · intro i j hi hj hr1 hr2
      rw [hh] at hi
      rw [hw] at hj
      unfold resolvedP at hr1 hr2
      rw [hT i j] at hr1
      rw [hT i (j + 1)] at hr2
      rw [hS i j, hS i (j + 1)]
      exact hedges.2 i j hi hj hr1 hr2

theorem inv_pass (tiles : List Tile) (n : Nat) (b : Board)
    (hinv : LoopInv tiles n b) : LoopInv tiles n (update_entropies b tiles) :=
  inv_of_skeleton tiles n b (update_entropies b tiles)
    (update_entropies_h b tiles) (update_entropies_w b tiles)
    (pass_tile b tiles) (pass_sides b tiles) (pass_active b tiles)
    (pass_cells_inactive b tiles) hinv

theorem dirPossUp_nodup (b : Board) (tiles : List Tile) (i j : Nat) :
    (dirPossUp b tiles i j).Nodup := by
  unfold dirPossUp
  dsimp only
  split
  · split
    · exact matchChars_nodup _ _
    · exact tileSet_nodup _
  · exact List.nodup_nil

theorem dirPossRight_nodup (b : Board) (tiles : List Tile) (i j : Nat) :
    (dirPossRight b tiles i j).Nodup := by
  unfold dirPossRight
  dsimp only
  split
  · split
    · exact matchChars_nodup _ _
    · exact tileSet_nodup _
  · exact List.nodup_nil

theorem dirPossDown_nodup (b : Board) (tiles : List Tile) (i j : Nat) :
    (dirPossDown b tiles i j).Nodup := by
  unfold dirPossDown
  dsimp only
  split
  · split
    · exact matchChars_nodup _ _
    · exact tileSet_nodup _
  · exact List.nodup_nil

theorem dirPossLeft_nodup (b : Board) (tiles : List Tile) (i j : Nat) :
    (dirPossLeft b tiles i j).Nodup := by
  unfold dirPossLeft
  dsimp only
  split
  · split
    · exact matchChars_nodup _ _
    · exact tileSet_nodup _
  · exact List.nodup_nil

/-- Entropy of a resolved cell after the pass: the stale value 13 of the
catalog clone. -/
theorem pass_entropy_resolved (tiles : List Tile) (n : Nat) (b : Board)
    (hg : goodCatalog tiles) (hinv : LoopInv tiles n b) (i j : Nat)
    (hi : i < b.h) (hj : j < b.w) (hres : (b.cells i j).tile ≠ '-') :
    ((update_entropies b tiles).cells i j).entropy = 13 := by
  obtain ⟨t, ht, hcell⟩ := hinv.res i j hi hj hres
  rw [pass_cells_inactive b tiles i j (by rw [hcell]; simp), hcell,
    Tile.entropy_setActive]
  exact (hg.2.2.1 t ht).2.1

/-- Entropy of an inactive undetermined cell after the pass: the initial
value 13. -/
theorem pass_entropy_inact (tiles : List Tile) (n : Nat) (b : Board)
    (hinv : LoopInv tiles n b) (i j : Nat)
    (hi : i < b.h) (hj : j < b.w) (hund : (b.cells i j).tile = '-')
    (hina : (b.cells i j).active = false) :
    ((update_entropies b tiles).cells i j).entropy = 13 := by
  rw [pass_cells_inactive b tiles i j hina, hinv.inact i j hi hj hund hina]
  rfl

/-- Entropy of an active cell after the pass: always below 13, because its
allowed list is contained in the facing-match set of one of its resolved
neighbours and the catalog bounds every such set by 12. -/
theorem active_entropy_lt (tiles : List Tile) (n : Nat) (b : Board)
    (hg : goodCatalog tiles) (hinv : LoopInv tiles n b) (i j : Nat)
    (hi : i < b.h) (hj : j < b.w) (hact : (b.cells i j).active = true) :
    ((update_entropies b tiles).cells i j).entropy < 13 := by
  obtain ⟨hund, i2, j2, hi2, hj2, hadj, hres2⟩ := hinv.act i j hi hj hact
  obtain ⟨t2, ht2, hcell2⟩ := hinv.res i2 j2 hi2 hj2 hres2
  have hsides2 : (b.cells i2 j2).sides = t2.sides := by
    rw [hcell2]
    simp
  rw [pass_cell_active_undet b tiles i j hi hj hact hund]
  have hnodup : ∀ v ∈ possList (((b.cells i j).setPoss
      ⟨dirPossUp b tiles i j, dirPossRight b tiles i j,
       dirPossDown b tiles i j, dirPossLeft b tiles i j⟩).possibilities), v.Nodup := by
    rw [Tile.possibilities_setPoss]
    intro v hv
    simp only [possList, List.mem_cons, List.not_mem_nil, or_false] at hv
    rcases hv with rfl | rfl | rfl | rfl
    · exact dirPossUp_nodup b tiles i j
    · exact dirPossRight_nodup b tiles i j
    · exact dirPossDown_nodup b tiles i j
    · exact dirPossLeft_nodup b tiles i j
  rcases adjacentP_cases i j i2 j2 hadj with ⟨hx0, hi1, hj1⟩ | ⟨hj1, hi1⟩ | ⟨hi1, hj1⟩ | ⟨hy0, hi1, hj1⟩
  · -- resolved neighbour above
    rw [hi1, hj1] at hres2 hsides2
    have hdir : dirPossUp b tiles i j =
        matchChars tiles (fun tl => tl.sides.up == t2.sides.down) := by
      unfold dirPossUp
      dsimp only
      rw [if_pos hx0, if_pos hres2, hsides2]
    have hb := ((hg.2.2.2) t2 ht2).1
    refine lt_of_le_of_lt (update_entropy_entropy_le _ tiles (dirPossUp b tiles i j)
      ?_ ?_ hnodup) ?_
    · rw [Tile.possibilities_setPoss]
      simp [possList]
    · rw [hdir]
      exact List.ne_nil_of_length_pos hb.1
    · rw [hdir]
      exact hb.2
  · -- resolved neighbour to the right
    rw [hi1, hj1] at hres2 hsides2
    rw [hj1] at hj2
    have hdir : dirPossRight b tiles i j =
        matchChars tiles (fun tl => tl.sides.right == t2.sides.left) := by
      unfold dirPossRight
      dsimp only
      rw [if_pos (by omega), if_pos hres2, hsides2]
    have hb := ((hg.2.2.2) t2 ht2).2.1
    refine lt_of_le_of_lt (update_entropy_entropy_le _ tiles (dirPossRight b tiles i j)
      ?_ ?_ hnodup) ?_
    · rw [Tile.possibilities_setPoss]
      simp [possList]
    · rw [hdir]
      exact List.ne_nil_of_length_pos hb.1
    · rw [hdir]
      exact hb.2
  · -- resolved neighbour below
    rw [hi1, hj1] at hres2 hsides2
    rw [hi1] at hi2
    have hdir : dirPossDown b tiles i j =
        matchChars tiles (fun tl => tl.sides.down == t2.sides.up) := by
      unfold dirPossDown
      dsimp only
      rw [if_pos (by omega), if_pos hres2, hsides2]
    have hb := ((hg.2.2.2) t2 ht2).2.2.1
    refine lt_of_le_of_lt (update_entropy_entropy_le _ tiles (dirPossDown b tiles i j)
      ?_ ?_ hnodup) ?_
    · rw [Tile.possibilities_setPoss]
      simp [possList]
    · rw [hdir]
      exact List.ne_nil_of_length_pos hb.1
    · rw [hdir]
      exact hb.2
  · -- resolved neighbour to the left
    rw [hi1, hj1] at hres2 hsides2
    have hdir : dirPossLeft b tiles i j =
        matchChars tiles (fun tl => tl.sides.left == t2.sides.right) := by
      unfold dirPossLeft
      dsimp only
      rw [if_pos hy0, if_pos hres2, hsides2]
    have hb := ((hg.2.2.2) t2 ht2).2.2.2
    refine lt_of_le_of_lt (update_entropy_entropy_le _ tiles (dirPossLeft b tiles i j)
      ?_ ?_ hnodup) ?_
    · rw [Tile.possibilities_setPoss]
      simp [possList]
    · rw [hdir]
      exact List.ne_nil_of_length_pos hb.1
    · rw [hdir]
      exact hb.2

/-- At any iteration with at least one resolved and one undetermined cell,
every minimum-entropy candidate of the recomputed board is an active
undetermined cell. -/
theorem sel_active (tiles : List Tile) (n : Nat) (b : Board)
    (hg : goodCatalog tiles) (hinv : LoopInv tiles n b)
    (hn1 : 1 ≤ n) (hn2 : n < b.h * b.w) :
    ∀ p ∈ lowestEntropyIndices (update_entropies b tiles),
      p.1 < b.h ∧ p.2 < b.w ∧ (b.cells p.1 p.2).active = true ∧
      (b.cells p.1 p.2).tile = '-' := by
  -- a resolved cell exists
  have hres : ∃ ra rb, ra < b.h ∧ rb < b.w ∧ (b.cells ra rb).tile ≠ '-' := by
    have hpos : 0 < ((rowMajor b.h b.w).filter
        (fun p => (b.cells p.1 p.2).tile != '-')).length := by
      have := hinv.count
      unfold resolvedCount at this
      omega
    obtain ⟨p, hp, hval⟩ := exists_of_filter_pos _ _ hpos
    cases p with | mk pa pb =>
    obtain ⟨h1, h2⟩ := (mem_rowMajor b.h b.w pa pb).mp hp
    exact ⟨pa, pb, h1, h2, by simpa using hval⟩
  -- an undetermined cell exists
  have hund : ∃ ua ub, ua < b.h ∧ ub < b.w ∧ (b.cells ua ub).tile = '-' := by
    have hlt : ((rowMajor b.h b.w).filter
        (fun p => (b.cells p.1 p.2).tile != '-')).length < (rowMajor b.h b.w).length := by
      have := hinv.count
      unfold resolvedCount at this
      rw [rowMajor_length]
      omega
    obtain ⟨p, hp, hval⟩ := exists_not_of_filter_lt _ _ hlt
    cases p with | mk pa pb =>
    obtain ⟨h1, h2⟩ := (mem_rowMajor b.h b.w pa pb).mp hp
    exact ⟨pa, pb, h1, h2, by simpa using hval⟩
  obtain ⟨ra, rb, hra, hrb, hR⟩ := hres
  obtain ⟨ua, ub, hua, hub, hU⟩ := hund
  -- an undetermined cell adjacent to a resolved one exists, and is active
  obtain ⟨ui, uj, ri, rj, hui, huj, hri, hrj, hadj, hUu, hRr⟩ :=
    grid_boundary b.h b.w (fun i j => (b.cells i j).tile ≠ '-')
      ((ra - ua) + (ua - ra) + (rb - ub) + (ub - rb)) ra rb ua ub hra hrb hua hub
      hR (by simpa using hU) (le_refl _)
  have hUu2 : (b.cells ui uj).tile = '-' := by
    by_contra hc
    exact hUu hc
  have hactu : (b.cells ui uj).active = true :=
    hinv.front ui uj ri rj hui huj hri hrj hadj hUu2 hRr
  have hu13 : ((update_entropies b tiles).cells ui uj).entropy < 13 :=
    active_entropy_lt tiles n b hg hinv ui uj hui huj hactu
  have hmin : minEntropy (update_entropies b tiles) < 13 :=
    lt_of_le_of_lt (minEntropy_le (update_entropies b tiles) ui uj
      (by rw [update_entropies_h]; exact hui) (by rw [update_entropies_w]; exact huj)) hu13
  intro p hp
  obtain ⟨hp1, hp2, hpe⟩ := (mem_lowestEntropyIndices _ p).mp hp
  rw [update_entropies_h] at hp1
  rw [update_entropies_w] at hp2
  refine ⟨hp1, hp2, ?_⟩
  by_cases hres2 : (b.cells p.1 p.2).tile ≠ '-'
  · exfalso
    have := pass_entropy_resolved tiles n b hg hinv p.1 p.2 hp1 hp2 hres2
    omega
  · have hund2 : (b.cells p.1 p.2).tile = '-' := by
      by_contra hc
      exact hres2 hc
    cases hacp : (b.cells p.1 p.2).active
    · exfalso
      have := pass_entropy_inact tiles n b hinv p.1 p.2 hp1 hp2 hund2 hacp
      omega
    · exact ⟨rfl, hund2⟩

/-- A tile taken from the allowed list of an active undetermined cell after
the pass belongs to the catalog and agrees with every resolved in-bounds
neighbour of the cell. -/
theorem allowed_compat (tiles : List Tile) (n : Nat) (b : Board)
    (hg : goodCatalog tiles) (hinv : LoopInv tiles n b) (x y : Nat)
    (hx : x < b.h) (hy : y < b.w)
    (hact : (b.cells x y).active = true) (hund : (b.cells x y).tile = '-')
    (t : Tile) (ht : t ∈ ((update_entropies b tiles).cells x y).allowed) :
    t ∈ tiles ∧ compatAt b x y t := by
  rw [pass_cell_active_undet b tiles x y hx hy hact hund] at ht
  obtain ⟨ch, hfind, hall⟩ := mem_update_entropy_allowed _ tiles t ht
  obtain ⟨htmem, httile⟩ := get_tile_from_char_mem tiles ch t hfind
  rw [Tile.possibilities_setPoss] at hall
  have hdirmem : ∀ s ∈ ([dirPossUp b tiles x y, dirPossRight b tiles x y,
      dirPossDown b tiles x y, dirPossLeft b tiles x y] : List CSet), s ≠ [] → ch ∈ s := by
    intro s hs hne
    exact hall s hs hne
  refine ⟨htmem, ?_, ?_, ?_, ?_⟩
  · -- up neighbour
    intro hx0 hresU
    unfold resolvedP at hresU
    obtain ⟨t2, ht2, hcell2⟩ := hinv.res (x - 1) y (by omega) hy hresU
    have hsides2 : (b.cells (x - 1) y).sides = t2.sides := by
      rw [hcell2]
      simp
    have hdir : dirPossUp b tiles x y =
        matchChars tiles (fun tl => tl.sides.up == t2.sides.down) := by
      unfold dirPossUp
      dsimp only
      rw [if_pos hx0, if_pos hresU, hsides2]
    have hb := ((hg.2.2.2) t2 ht2).1
    have hch : ch ∈ dirPossUp b tiles x y := by
      refine hdirmem _ (by simp) ?_
      rw [hdir]
      exact List.ne_nil_of_length_pos hb.1
    rw [hdir, mem_matchChars] at hch
    obtain ⟨tl, htl, hpred, htltile⟩ := hch
    have heqt : tl = t :=
      nodup_map_tile_inj tiles hg.2.1 tl t htl htmem (by rw [htltile, httile])
    rw [hsides2, ← heqt]
    exact (beq_iff_eq).mp hpred
  · -- right neighbour
    intro hy1 hresR
    unfold resolvedP at hresR
    obtain ⟨t2, ht2, hcell2⟩ := hinv.res x (y + 1) hx hy1 hresR
    have hsides2 : (b.cells x (y + 1)).sides = t2.sides := by
      rw [hcell2]
      simp
    have hdir : dirPossRight b tiles x y =
        matchChars tiles (fun tl => tl.sides.right == t2.sides.left) := by
      unfold dirPossRight
      dsimp only
      rw [if_pos (by omega), if_pos hresR, hsides2]
    have hb := ((hg.2.2.2) t2 ht2).2.1
    have hch : ch ∈ dirPossRight b tiles x y := by
      refine hdirmem _ (by simp) ?_
      rw [hdir]
      exact List.ne_nil_of_length_pos hb.1
    rw [hdir, mem_matchChars] at hch
    obtain ⟨tl, htl, hpred, htltile⟩ := hch
    have heqt : tl = t :=
      nodup_map_tile_inj tiles hg.2.1 tl t htl htmem (by rw [htltile, httile])
    rw [hsides2, ← heqt]
    exact (beq_iff_eq).mp hpred
  · -- lower neighbour
    intro hx1 hresD
    unfold resolvedP at hresD
    obtain ⟨t2, ht2, hcell2⟩ := hinv.res (x + 1) y hx1 hy hresD
    have hsides2 : (b.cells (x + 1) y).sides = t2.sides := by
      rw [hcell2]
      simp
    have hdir : dirPossDown b tiles x y =
        matchChars tiles (fun tl => tl.sides.down == t2.sides.up) := by
      unfold dirPossDown
      dsimp only
      rw [if_pos (by omega), if_pos hresD, hsides2]
    have hb := ((hg.2.2.2) t2 ht2).2.2.1
    have hch : ch ∈ dirPossDown b tiles x y := by
      refine hdirmem _ (by simp) ?_
      rw [hdir]
      exact List.ne_nil_of_length_pos hb.1
    rw [hdir, mem_matchChars] at hch
    obtain ⟨tl, htl, hpred, htltile⟩ := hch
    have heqt : tl = t :=
      nodup_map_tile_inj tiles hg.2.1 tl t htl htmem (by rw [htltile, httile])
    rw [hsides2, ← heqt]
    exact (beq_iff_eq).mp hpred
  · -- left neighbour
    intro hy0 hresL
    unfold resolvedP at hresL
    obtain ⟨t2, ht2, hcell2⟩ := hinv.res x (y - 1) hx (by omega) hresL
    have hsides2 : (b.cells x (y - 1)).sides = t2.sides := by
      rw [hcell2]
      simp
    have hdir : dirPossLeft b tiles x y =
        matchChars tiles (fun tl => tl.sides.left == t2.sides.right) := by
      unfold dirPossLeft
      dsimp only
      rw [if_pos hy0, if_pos hresL, hsides2]
    have hb := ((hg.2.2.2) t2 ht2).2.2.2
    have hch : ch ∈ dirPossLeft b tiles x y := by
      refine hdirmem _ (by simp) ?_
      rw [hdir]
      exact List.ne_nil_of_length_pos hb.1
    rw [hdir, mem_matchChars] at hch
    obtain ⟨tl, htl, hpred, htltile⟩ := hch
    have heqt : tl = t :=
      nodup_map_tile_inj tiles hg.2.1 tl t htl htmem (by rw [htltile, httile])
    rw [hsides2, ← heqt]
    exact (beq_iff_eq).mp hpred

theorem adjacentP_symm (a b c d : Nat) (h : adjacentP a b c d) : adjacentP c d a b := by
  unfold adjacentP at h ⊢
  omega

/-- A collapse at an in-bounds undetermined cell with a catalog tile that
agrees with every resolved neighbour advances the invariant by one
iteration. -/
theorem inv_collapse (tiles : List Tile) (n : Nat) (B : Board)
    (hg : goodCatalog tiles) (hinv : LoopInv tiles n B) (x y : Nat) (t : Tile)
    (hx : x < B.h) (hy : y < B.w) (hund : (B.cells x y).tile = '-')
    (ht : t ∈ tiles) (hcompat : compatAt B x y t) :
    LoopInv tiles (n + 1) (collapseAt B x y t) := by
  have htt : t.tile ≠ '-' := (hg.2.2.1 t ht).1
  have hcenter := collapseAt_center B x y t
  have hfields : ∀ i j, ¬(i = x ∧ j = y) →
      ((collapseAt B x y t).cells i j).tile = (B.cells i j).tile ∧
      ((collapseAt B x y t).cells i j).sides = (B.cells i j).sides :=
    fun i j h0 =>
      ⟨(cellLike_fields _ _ (collapseAt_cellLike B x y t i j h0)).1,
       (cellLike_fields _ _ (collapseAt_cellLike B x y t i j h0)).2.1⟩
  have hres_unch : ∀ i j, ¬(i = x ∧ j = y) → (B.cells i j).tile ≠ '-' →
      (collapseAt B x y t).cells i j = B.cells i j := by
    intro i j h0 hres
    by_cases c1 : 0 < x ∧ i = x - 1 ∧ j = y
    · obtain ⟨g, e1, e2⟩ := c1
      rw [e1, e2] at hres ⊢
      rw [collapseAt_up B x y t g, if_neg hres]
    · by_cases c2 : y < B.w - 1 ∧ i = x ∧ j = y + 1
      · obtain ⟨g, e1, e2⟩ := c2
        rw [e1, e2] at hres ⊢
        rw [collapseAt_right B x y t g, if_neg hres]
      · by_cases c3 : x < B.h - 1 ∧ i = x + 1 ∧ j = y
        · obtain ⟨g, e1, e2⟩ := c3
          rw [e1, e2] at hres ⊢
          rw [collapseAt_down B x y t g, if_neg hres]
        · by_cases c4 : 0 < y ∧ i = x ∧ j = y - 1
          · obtain ⟨g, e1, e2⟩ := c4
            rw [e1, e2] at hres ⊢
            rw [collapseAt_left B x y t g, if_neg hres]
          · exact collapseAt_other B x y t i j h0 (by omega) (by omega) (by omega) (by omega)
  have hslot : ∀ i j, ¬(i = x ∧ j = y) →
      (collapseAt B x y t).cells i j = B.cells i j ∨
      ((B.cells i j).tile = '-' ∧
        (collapseAt B x y t).cells i j = (B.cells i j).setActive true ∧
        adjacentP x y i j) := by
    intro i j h0
    by_cases c1 : 0 < x ∧ i = x - 1 ∧ j = y
    · obtain ⟨g, e1, e2⟩ := c1
      rw [e1, e2]
      by_cases hu : (B.cells (x - 1) y).tile = '-'
      · exact Or.inr ⟨hu, by rw [collapseAt_up B x y t g, if_pos hu],
          by unfold adjacentP; omega⟩
      · exact Or.inl (by rw [collapseAt_up B x y t g, if_neg hu])
    · by_cases c2 : y < B.w - 1 ∧ i = x ∧ j = y + 1
      · obtain ⟨g, e1, e2⟩ := c2
        rw [e1, e2]
        by_cases hu : (B.cells x (y + 1)).tile = '-'
        · exact Or.inr ⟨hu, by rw [collapseAt_right B x y t g, if_pos hu],
            by unfold adjacentP; omega⟩
        · exact Or.inl (by rw [collapseAt_right B x y t g, if_neg hu])
      · by_cases c3 : x < B.h - 1 ∧ i = x + 1 ∧ j = y
        · obtain ⟨g, e1, e2⟩ := c3
          rw [e1, e2]
          by_cases hu : (B.cells (x + 1) y).tile = '-'
          · exact Or.inr ⟨hu, by rw [collapseAt_down B x y t g, if_pos hu],
              by unfold adjacentP; omega⟩
          · exact Or.inl (by rw [collapseAt_down B x y t g, if_neg hu])
        · by_cases c4 : 0 < y ∧ i = x ∧ j = y - 1
          · obtain ⟨g, e1, e2⟩ := c4
            rw [e1, e2]
            by_cases hu : (B.cells x (y - 1)).tile = '-'
            · exact Or.inr ⟨hu, by rw [collapseAt_left B x y t g, if_pos hu],
                by unfold adjacentP; omega⟩
            · exact Or.inl (by rw [collapseAt_left B x y t g, if_neg hu])
          · exact Or.inl
              (collapseAt_other B x y t i j h0 (by omega) (by omega) (by omega) (by omega))
  have hactivated : ∀ i j, i < B.h → j < B.w → adjacentP x y i j →
      (B.cells i j).tile = '-' →
      (collapseAt B x y t).cells i j = (B.cells i j).setActive true := by
    intro i j hi hj hadj hu
    rcases adjacentP_cases x y i j hadj with ⟨g, e1, e2⟩ | ⟨e2, e1⟩ | ⟨e1, e2⟩ | ⟨g, e1, e2⟩
    · rw [e1, e2] at hu ⊢
      rw [collapseAt_up B x y t g, if_pos hu]
    · rw [e1, e2] at hu ⊢
      rw [collapseAt_right B x y t (by omega), if_pos hu]
    · rw [e1, e2] at hu ⊢
      rw [collapseAt_down B x y t (by omega), if_pos hu]
    · rw [e1, e2] at hu ⊢
      rw [collapseAt_left B x y t g, if_pos hu]
  refine ⟨⟨by rw [collapseAt_h]; exact hinv.hpos.1, by rw [collapseAt_w]; exact hinv.hpos.2⟩,
    ?_, ?_, ?_, ?_, ?_, ?_⟩
  · -- count
    unfold resolvedCount
    rw [collapseAt_h, collapseAt_w]
    rw [filter_length_update (rowMajor B.h B.w)
      (fun p => (B.cells p.1 p.2).tile != '-')
      (fun p => ((collapseAt B x y t).cells p.1 p.2).tile != '-')
      (x, y) (rowMajor_nodup B.h B.w) ((mem_rowMajor B.h B.w x y).mpr ⟨hx, hy⟩)
      (by simp [hund]) (by dsimp only; rw [hcenter]; simp [htt])
      (fun q hq hqne => by
        have h0 : ¬(q.1 = x ∧ q.2 = y) := by
          cases q
          simpa [Prod.ext_iff] using hqne
        dsimp only
        rw [(hfields q.1 q.2 h0).1])]
    have := hinv.count
    unfold resolvedCount at this
    omega
  · -- res
    intro i j hi hj hres2
    rw [collapseAt_h] at hi
    rw [collapseAt_w] at hj
    by_cases hc : i = x ∧ j = y
    · obtain ⟨e1, e2⟩ := hc
      rw [e1, e2, hcenter]
      exact ⟨t, ht, rfl⟩
    · have hresB : (B.cells i j).tile ≠ '-' := by
        rw [← (hfields i j hc).1]
        exact hres2
      rw [hres_unch i j hc hresB]
      exact hinv.res i j hi hj hresB
  · -- inact
    intro i j hi hj hund2 hina2
    rw [collapseAt_h] at hi
    rw [collapseAt_w] at hj
    by_cases hc : i = x ∧ j = y
    · exfalso
      obtain ⟨e1, e2⟩ := hc
      rw [e1, e2, hcenter] at hund2
      simp at hund2
      exact htt hund2
    · have hundB : (B.cells i j).tile = '-' := by
        rw [← (hfields i j hc).1]
        exact hund2
      rcases hslot i j hc with heq | ⟨_, hset, _⟩
      · rw [heq]
        rw [heq] at hina2
        exact hinv.inact i j hi hj hundB hina2
      · exfalso
        rw [hset] at hina2
        simp at hina2
  · -- act
    intro i j hi hj hact2
    rw [collapseAt_h] at hi
    rw [collapseAt_w] at hj
    by_cases hc : i = x ∧ j = y
    · exfalso
      obtain ⟨e1, e2⟩ := hc
      rw [e1, e2, hcenter] at hact2
      simp at hact2
    · rcases hslot i j hc with heq | ⟨hundB, hset, hadjslot⟩
      · rw [heq]
        rw [heq] at hact2
        obtain ⟨hu, i2, j2, h1, h2, h3, h4⟩ := hinv.act i j hi hj hact2
        refine ⟨hu, i2, j2, by rw [collapseAt_h]; exact h1,
          by rw [collapseAt_w]; exact h2, h3, ?_⟩
        by_cases hc2 : i2 = x ∧ j2 = y
        · obtain ⟨e1, e2⟩ := hc2
          rw [e1, e2, hcenter]
          simpa using htt
        · rw [(hfields i2 j2 hc2).1]
          exact h4
      · rw [hset]
        refine ⟨by simpa using hundB, x, y,
          by rw [collapseAt_h]; exact hx, by rw [collapseAt_w]; exact hy,
          adjacentP_symm x y i j hadjslot, ?_⟩
        rw [hcenter]
        simpa using htt
  · -- front
    intro i j i2 j2 hi hj hi2 hj2 hadj hund2 hres2
    rw [collapseAt_h] at hi hi2
    rw [collapseAt_w] at hj hj2
    have hc : ¬(i = x ∧ j = y) := by
      rintro ⟨e1, e2⟩
      rw [e1, e2, hcenter] at hund2
      simp at hund2
      exact htt hund2
    have hundB : (B.cells i j).tile = '-' := by
      rw [← (hfields i j hc).1]
      exact hund2
    by_cases hc2 : i2 = x ∧ j2 = y
    · obtain ⟨e1, e2⟩ := hc2
      rw [e1, e2] at hadj
      rw [hactivated i j hi hj (adjacentP_symm i j x y hadj) hundB]
      simp
    · have hresB : (B.cells i2 j2).tile ≠ '-' := by
        rw [← (hfields i2 j2 hc2).1]
        exact hres2
      have hactB : (B.cells i j).active = true :=
        hinv.front i j i2 j2 hi hj hi2 hj2 hadj hundB hresB
      rcases hslot i j hc with heq | ⟨_, hset, _⟩
      · rw [heq]
        exact hactB
      · rw [hset]
        simp
  · -- edges
    constructor
    · intro i j hi hj hr1 hr2
      rw [collapseAt_h] at hi
      rw [collapseAt_w] at hj
      unfold resolvedP at hr1 hr2
      by_cases hc1 : i = x ∧ j = y
      · obtain ⟨e1, e2⟩ := hc1
        have hc2 : ¬(i + 1 = x ∧ j = y) := by omega
        have hrB2 : (B.cells (i + 1) j).tile ≠ '-' := by
          rw [← (hfields (i + 1) j hc2).1]
          exact hr2
        have hcomp := hcompat.2.2.1 (by omega)
          (by show (B.cells (x + 1) y).tile ≠ '-'
              rw [show x + 1 = i + 1 by omega, show y = j from e2.symm]
              exact hrB2)
        rw [(hfields (i + 1) j hc2).2, e1, e2, hcenter]
        rw [show x + 1 = i + 1 by omega, show y = j from e2.symm] at hcomp
        rw [e1, e2] at hcomp
        simpa using hcomp
      · by_cases hc2 : i + 1 = x ∧ j = y
        · obtain ⟨e1, e2⟩ := hc2
          have hrB1 : (B.cells i j).tile ≠ '-' := by
            rw [← (hfields i j hc1).1]
            exact hr1
          have hcomp := hcompat.1 (by omega)
            (by show (B.cells (x - 1) y).tile ≠ '-'
                rw [show x - 1 = i by omega, show y = j from e2.symm]
                exact hrB1)
          rw [(hfields i j hc1).2, e1, e2, hcenter]
          rw [show x - 1 = i by omega, show y = j from e2.symm] at hcomp
          rw [e2] at hcomp
          simpa using hcomp.symm
        · have hrB1 : (B.cells i j).tile ≠ '-' := by
            rw [← (hfields i j hc1).1]
            exact hr1
          have hrB2 : (B.cells (i + 1) j).tile ≠ '-' := by
            rw [← (hfields (i + 1) j hc2).1]
            exact hr2
          rw [(hfields i j hc1).2, (hfields (i + 1) j hc2).2]
          exact hinv.edges.1 i j hi hj hrB1 hrB2
    · intro i j hi hj hr1 hr2
      rw [collapseAt_h] at hi
      rw [collapseAt_w] at hj
      unfold resolvedP at hr1 hr2
      by_cases hc1 : i = x ∧ j = y
      · obtain ⟨e1, e2⟩ := hc1
        have hc2 : ¬(i = x ∧ j + 1 = y) := by omega
        have hrB2 : (B.cells i (j + 1)).tile ≠ '-' := by
          rw [← (hfields i (j + 1) hc2).1]
          exact hr2
        have hcomp := hcompat.2.1 (by omega)
          (by show (B.cells x (y + 1)).tile ≠ '-'
              rw [show x = i from e1.symm, show y + 1 = j + 1 by omega]
              exact hrB2)
        rw [(hfields i (j + 1) hc2).2, e1, e2, hcenter]
        rw [show x = i from e1.symm, show y + 1 = j + 1 by omega] at hcomp
        rw [e1, e2] at hcomp
        simpa using hcomp
      · by_cases hc2 : i = x ∧ j + 1 = y
        · obtain ⟨e1, e2⟩ := hc2
          have hrB1 : (B.cells i j).tile ≠ '-' := by
            rw [← (hfields i j hc1).1]
            exact hr1
          have hcomp := hcompat.2.2.2 (by omega)
            (by show (B.cells x (y - 1)).tile ≠ '-'
                rw [show x = i from e1.symm, show y - 1 = j by omega]
                exact hrB1)
          rw [(hfields i j hc1).2, e2, e1, hcenter]
          rw [show x = i from e1.symm, show y - 1 = j by omega] at hcomp
          rw [e1] at hcomp
          simpa using hcomp.symm
        · have hrB1 : (B.cells i j).tile ≠ '-' := by
            rw [← (hfields i j hc1).1]
            exact hr1
          have hrB2 : (B.cells i (j + 1)).tile ≠ '-' := by
            rw [← (hfields i (j + 1) hc2).1]
            exact hr2
          rw [(hfields i j hc1).2, (hfields i (j + 1) hc2).2]
          exact hinv.edges.2 i j hi hj hrB1 hrB2

theorem reaches_dims (tiles : List Tile) (h w n : Nat) (b : Board)
    (hr : Reaches tiles (initBoard h w) n b) : b.h = h ∧ b.w = w := by
  induction hr with
  | refl => exact ⟨rfl, rfl⟩
  | step hr1 hst ih =>
    obtain ⟨x, y, t, hstep⟩ := hst
    unfold StepAt at hstep
    split at hstep
    · rw [hstep.2.2]
      simpa using ih
    · rw [hstep.2.2]
      simpa using ih

/-- Every reachable state of the main loop satisfies the invariant. -/
theorem reaches_inv (tiles : List Tile) (h w : Nat)
    (hg : goodCatalog tiles) (hh : 0 < h) (hw : 0 < w) :
    ∀ n b, Reaches tiles (initBoard h w) n b → LoopInv tiles n b := by
  intro n b hr
  induction hr with
  | refl => exact inv_init tiles h w hh hw
  | @step n1 b1 b2 hr1 hst ih =>
    obtain ⟨x, y, t, hstep⟩ := hst
    unfold StepAt at hstep
    by_cases hn0 : n1 = 0
    · subst hn0
      rw [if_pos rfl] at hstep
      obtain ⟨hx, hy, hmin⟩ := (mem_lowestEntropyIndices b1 (x, y)).mp hstep.1
      have hundet : ∀ i j, i < b1.h → j < b1.w → (b1.cells i j).tile = '-' := by
        intro i j hi hj
        by_contra hc
        have hmemf : (i, j) ∈ (rowMajor b1.h b1.w).filter
            (fun p => (b1.cells p.1 p.2).tile != '-') :=
          List.mem_filter.mpr ⟨(mem_rowMajor _ _ _ _).mpr ⟨hi, hj⟩, by simp [hc]⟩
        have hcnt := ih.count
        unfold resolvedCount at hcnt
        rw [List.length_eq_zero] at hcnt
        rw [hcnt] at hmemf
        exact List.not_mem_nil _ hmemf
      have hcompat : compatAt b1 x y t := by
        refine ⟨?_, ?_, ?_, ?_⟩
        · intro h1 h2
          exact absurd (hundet (x - 1) y (by omega) hy) h2
        · intro h1 h2
          exact absurd (hundet x (y + 1) hx h1) h2
        · intro h1 h2
          exact absurd (hundet (x + 1) y h1 hy) h2
        · intro h1 h2
          exact absurd (hundet x (y - 1) hx (by omega)) h2
      rw [hstep.2.2]
      exact inv_collapse tiles 0 b1 hg ih x y t hx hy (hundet x y hx hy)
        hstep.2.1 hcompat
    · rw [if_neg hn0] at hstep
      have hle : n1 ≤ b1.h * b1.w := by
        have hcnt := ih.count
        unfold resolvedCount at hcnt
        have hlen := List.length_filter_le
          (fun p => (b1.cells p.1 p.2).tile != '-') (rowMajor b1.h b1.w)
        rw [rowMajor_length] at hlen
        omega
      by_cases hlt : n1 < b1.h * b1.w
      · obtain ⟨hx, hy, hact, hund⟩ :=
          sel_active tiles n1 b1 hg ih (by omega) hlt (x, y) hstep.1
        obtain ⟨htmem, hcompat⟩ :=
          allowed_compat tiles n1 b1 hg ih x y hx hy hact hund t hstep.2.1
        have hinvB : LoopInv tiles n1 (update_entropies b1 tiles) :=
          inv_pass tiles n1 b1 ih
      -- transfer the compatibility statement to the recomputed board
        have hcompat2 : compatAt (update_entropies b1 tiles) x y t := by
          obtain ⟨c1, c2, c3, c4⟩ := hcompat
          unfold compatAt resolvedP at *
          rw [update_entropies_h, update_entropies_w]
          refine ⟨?_, ?_, ?_, ?_⟩
          · intro g1 g2
            rw [pass_tile] at g2
            rw [pass_sides]
            exact c1 g1 g2
          · intro g1 g2
            rw [pass_tile] at g2
            rw [pass_sides]
            exact c2 g1 g2
          · intro g1 g2
            rw [pass_tile] at g2
            rw [pass_sides]
            exact c3 g1 g2
          · intro g1 g2
            rw [pass_tile] at g2
            rw [pass_sides]
            exact c4 g1 g2
        rw [hstep.2.2]
        exact inv_collapse tiles n1 (update_entropies b1 tiles) hg hinvB x y t
          (by rw [update_entropies_h]; exact hx)
          (by rw [update_entropies_w]; exact hy)
          (by rw [pass_tile]; exact hund) htmem hcompat2
      · exfalso
        have hallres : ∀ i j, i < b1.h → j < b1.w → (b1.cells i j).tile ≠ '-' := by
          have hcnt := ih.count
          unfold resolvedCount at hcnt
          have hall := all_of_filter_length (rowMajor b1.h b1.w)
            (fun p => (b1.cells p.1 p.2).tile != '-')
            (by rw [rowMajor_length]; omega)
          intro i j hi hj
          have := hall (i, j) ((mem_rowMajor _ _ _ _).mpr ⟨hi, hj⟩)
          simpa using this
        obtain ⟨hx, hy, hmin⟩ := (mem_lowestEntropyIndices _ (x, y)).mp hstep.1
        rw [update_entropies_h] at hx
        rw [update_entropies_w] at hy
        obtain ⟨t2, ht2, hcell⟩ := ih.res x y hx hy (hallres x y hx hy)
        have hempty : ((update_entropies b1 tiles).cells x y).allowed = [] := by
          rw [pass_cells_inactive b1 tiles x y (by rw [hcell]; simp), hcell,
            Tile.allowed_setActive]
          exact List.length_eq_zero.mp (hg.2.2.1 t2 ht2).2.2.1
        rw [hempty] at hstep
        exact List.not_mem_nil t hstep.2.1

theorem goodCatalog_mainTiles : goodCatalog mainTiles := by
  unfold goodCatalog
  refine ⟨?_, by decide, by decide, by decide⟩
  unfold mainTiles
  exact List.cons_ne_nil _ _

/-- C1: in any run of the main loop that completes all width*height
iterations without panicking, every pair of orthogonally adjacent resolved
cells carries matching facing connector codes: the down code of the upper
cell equals the up code of the lower cell, and the right code of the left
cell equals the left code of the right cell. -/
theorem C1_adjacent_codes_match (tiles : List Tile) (h w : Nat)
    (hg : goodCatalog tiles) (hh : 0 < h) (hw : 0 < w) (b : Board)
    (hr : Reaches tiles (initBoard h w) (h * w) b) : edgesOk b :=
  (reaches_inv tiles h w hg hh hw (h * w) b hr).edges

/-- C1 witness: a complete concrete 1 by 2 run with the catalog of main. -/
theorem C1_adjacent_codes_match_witness : goodCatalog mainTiles ∧ edgesOk b2w :=
  ⟨goodCatalog_mainTiles,
   C1_adjacent_codes_match mainTiles 1 2 goodCatalog_mainTiles (by decide) (by decide) b2w
     (Reaches.step
       (Reaches.step Reaches.refl
         ⟨0, 0, t0w, by
           unfold StepAt
           rw [if_pos rfl]
           exact ⟨by decide, List.Mem.head _, rfl⟩⟩)
       ⟨0, 1, t1w, by
         unfold StepAt
         rw [if_neg (by decide)]
         refine ⟨by decide, ?_, rfl⟩
         show t1w ∈ ((b1wPass.cells 0 1).allowed)
         exact List.head_mem _⟩)⟩

/-- C4: at every iteration after the first and before the grid is full,
any cell selected by the minimum-entropy scan over the recomputed board is
an active undetermined cell: an already-resolved cell, whose stale entropy
is 13, is never selected because some active cell always has entropy
below 13. -/
theorem C4_selected_never_resolved (tiles : List Tile) (h w : Nat)
    (hg : goodCatalog tiles) (hh : 0 < h) (hw : 0 < w) (n : Nat) (b : Board)
    (hr : Reaches tiles (initBoard h w) n b) (hn1 : 1 ≤ n) (hn2 : n < h * w) :
    ∀ p ∈ lowestEntropyIndices (update_entropies b tiles),
      ((update_entropies b tiles).cells p.1 p.2).tile = '-' ∧
      ((update_entropies b tiles).cells p.1 p.2).active = true := by
  intro p hp
  have hinv := reaches_inv tiles h w hg hh hw n b hr
  have hdims := reaches_dims tiles h w n b hr
  obtain ⟨h1, h2, hact, hund⟩ :=
    sel_active tiles n b hg hinv hn1 (by rw [hdims.1, hdims.2]; exact hn2) p hp
  exact ⟨by rw [pass_tile]; exact hund, by rw [pass_active]; exact hact⟩

/-- C4 witness: at iteration 1 of the concrete 1 by 2 run, the selected
cell is the undetermined active neighbour, not the resolved cell. -/
theorem C4_selected_never_resolved_witness :
    (0, 1) ∈ lowestEntropyIndices (update_entropies b1w mainTiles) ∧
    ((update_entropies b1w mainTiles).cells 0 1).tile = '-' ∧
    ((update_entropies b1w mainTiles).cells 0 1).active = true :=
  ⟨by decide,
   C4_selected_never_resolved mainTiles 1 2 goodCatalog_mainTiles (by decide) (by decide) 1 b1w
     (Reaches.step Reaches.refl
       ⟨0, 0, t0w, by
         unfold StepAt
         rw [if_pos rfl]
         exact ⟨by decide, List.Mem.head _, rfl⟩⟩)
     (by decide) (by decide) (0, 1) (by decide)⟩

/-- C2: on any grid with positive dimensions, every non-panicking loop
iteration resolves exactly one previously undetermined cell and leaves the
resolvedness of all other cells unchanged, and after all width*height
iterations every cell holds a concrete catalog glyph. -/
theorem C2_one_per_iteration_and_full (tiles : List Tile) (h w : Nat)
    (hg : goodCatalog tiles) (hh : 0 < h) (hw : 0 < w) :
    oneStepResolves tiles h w ∧ allCatalogAfterFull tiles h w := by
  constructor
  · intro n b b2 hn hr hst
    have hinv := reaches_inv tiles h w hg hh hw n b hr
    have hdims := reaches_dims tiles h w n b hr
    obtain ⟨x, y, t, hstep⟩ := hst
    unfold StepAt at hstep
    by_cases hn0 : n = 0
    · subst hn0
      rw [if_pos rfl] at hstep
      obtain ⟨hsel, ht, hb2⟩ := hstep
      obtain ⟨hx, hy, hmin⟩ := (mem_lowestEntropyIndices b (x, y)).mp hsel
      have htt : t.tile ≠ '-' := (hg.2.2.1 t ht).1
      have hundet : ∀ i2 j2, i2 < b.h → j2 < b.w → (b.cells i2 j2).tile = '-' := by
        intro i2 j2 hi2 hj2
        by_contra hc
        have hmemf : (i2, j2) ∈ (rowMajor b.h b.w).filter
            (fun p => (b.cells p.1 p.2).tile != '-') :=
          List.mem_filter.mpr ⟨(mem_rowMajor _ _ _ _).mpr ⟨hi2, hj2⟩, by simp [hc]⟩
        have hcnt := hinv.count
        unfold resolvedCount at hcnt
        rw [List.length_eq_zero] at hcnt
        rw [hcnt] at hmemf
        exact List.not_mem_nil _ hmemf
      refine ⟨x, y, by rw [← hdims.1]; exact hx, by rw [← hdims.2]; exact hy,
        hundet x y hx hy, ?_, ?_⟩
      · rw [hb2, collapseAt_center]
        simpa using htt
      · intro i j hi hj hne
        rw [hb2, (cellLike_fields _ _ (collapseAt_cellLike b x y t i j hne)).1]
    · rw [if_neg hn0] at hstep
      obtain ⟨hsel, ht, hb2⟩ := hstep
      have hle : n ≤ b.h * b.w := by
        rw [hdims.1, hdims.2]
        omega
      obtain ⟨hx, hy, hact, hund⟩ :=
        sel_active tiles n b hg hinv (by omega)
          (by rw [hdims.1, hdims.2]; exact hn) (x, y) hsel
      have htmem : t ∈ tiles :=
        (allowed_compat tiles n b hg hinv x y hx hy hact hund t ht).1
      have htt : t.tile ≠ '-' := (hg.2.2.1 t htmem).1
      refine ⟨x, y, by rw [← hdims.1]; exact hx, by rw [← hdims.2]; exact hy,
        hund, ?_, ?_⟩
      · rw [hb2, collapseAt_center]
        simpa using htt
      · intro i j hi hj hne
        rw [hb2,
          (cellLike_fields _ _
            (collapseAt_cellLike (update_entropies b tiles) x y t i j hne)).1,
          pass_tile]
  · intro b hr i j hi hj
    have hinv := reaches_inv tiles h w hg hh hw (h * w) b hr
    have hdims := reaches_dims tiles h w (h * w) b hr
    have hall := all_of_filter_length (rowMajor b.h b.w)
      (fun p => (b.cells p.1 p.2).tile != '-')
      (by
        have hcnt := hinv.count
        unfold resolvedCount at hcnt
        rw [hdims.1, hdims.2] at hcnt
        rw [rowMajor_length, hdims.1, hdims.2]
        exact hcnt)
    have hres : (b.cells i j).tile ≠ '-' := by
      have := hall (i, j)
        ((mem_rowMajor _ _ _ _).mpr ⟨by rw [hdims.1]; exact hi, by rw [hdims.2]; exact hj⟩)
      simpa using this
    obtain ⟨t, ht, hcell⟩ := hinv.res i j (by rw [hdims.1]; exact hi)
      (by rw [hdims.2]; exact hj) hres
    exact ⟨t, ht, by rw [hcell]; simp⟩

/-- C2 witness: the concrete 1 by 2 instance with the catalog of main. -/
theorem C2_one_per_iteration_and_full_witness :
    oneStepResolves mainTiles 1 2 ∧ allCatalogAfterFull mainTiles 1 2 :=
  C2_one_per_iteration_and_full mainTiles 1 2 goodCatalog_mainTiles (by decide) (by decide)
